import Mathlib

/-!
A shallow embedding of `src/fat16dir.py` (a read-only FAT16 directory
lister) and proofs about it.

Conventions of the embedding:
* Bytes are `Nat` values; a device/file handle is modelled as the total
  function `Nat → Nat` giving the byte at each absolute offset (the
  device is assumed static and large enough, as the program does).
* Python byte strings become `List Nat`; Python's `struct.unpack` of
  little-endian fields becomes explicit arithmetic on those lists.
* Fallible operations (reads that could raise `IOError`/`IndexError`,
  `assert` statements) return `Option`/`Except`.
* Unbounded `while` loops are given explicit fuel; the caller of the
  model chooses the fuel, and running out of fuel is a distinguished
  outcome (used to express non-termination of the source loop).
-/

/-- Decidable equality of `Except` results, used to evaluate the model on
concrete inputs. -/
instance {ε α : Type} [DecidableEq ε] [DecidableEq α] :
    DecidableEq (Except ε α) := fun a b =>
  match a, b with
  | .error x, .error y =>
    if h : x = y then .isTrue (by rw [h])
    else .isFalse (by intro hc; cases hc; exact h rfl)
  | .ok x, .ok y =>
    if h : x = y then .isTrue (by rw [h])
    else .isFalse (by intro hc; cases hc; exact h rfl)
  | .error _, .ok _ => .isFalse (by intro hc; cases hc)
  | .ok _, .error _ => .isFalse (by intro hc; cases hc)

/-- `struct.unpack('<H', ...)`: little-endian 16-bit value from two bytes. -/
def le16of (lo hi : Nat) : Nat := lo + 256 * hi

/-- The class `BChain` from fat16dir.py: a chain of fixed-size blocks
(`blist`) inside a block area starting at byte `boffs`, presented as one
logical byte range.  The constructor stores a device handle `f`, faithfully
kept here as a field even though (as proved below, claim C10) the read
methods never consult it: they read from the module-level handle, which the
model passes explicitly as `gdev`. -/
structure BChain where
  f : Nat → Nat
  blist : List Nat
  bsize : Nat
  boffs : Nat

/-- `BChain.__len__`: total logical length in bytes. -/
def BChain.len (bc : BChain) : Nat := bc.blist.length * bc.bsize

/-- `BChain.offs(pos)`: absolute device offset of logical position `pos`. -/
def BChain.offs (bc : BChain) (pos : Nat) : Nat :=
  bc.boffs + bc.blist.getD (pos / bc.bsize) 0 * bc.bsize + pos % bc.bsize

/-- `BChain._read(pos, size)`: one bounded read.  Reads at most up to the
end of the current block (the requested size is clipped to the remaining
bytes of the block), from the MODULE-LEVEL device handle `gdev` (the Python
body uses the global `f`, not `self.f`).  Returns `none` where Python would
raise `IndexError` (block index beyond the block list). -/
def BChain._read (gdev : Nat → Nat) (bc : BChain) (pos size : Nat) :
    Option (List Nat) :=
  let n := pos / bc.bsize
  let p := pos % bc.bsize
  if n < bc.blist.length then
    let o := bc.boffs + bc.blist.getD n 0 * bc.bsize + p
    let size1 := if p + size > bc.bsize then bc.bsize - p else size
    some ((List.range size1).map (fun i => gdev (o + i)))
  else none

/-- The loop of `BChain.read`: repeatedly issue bounded reads and
concatenate until `size` bytes are produced.  Returns the bytes together
with the number of underlying bounded-read calls.  `fuel` bounds the number
of loop iterations; `BChain.read` supplies `size` as fuel, which suffices
whenever `bsize > 0` since every iteration yields at least one byte. -/
def BChain.readAux (gdev : Nat → Nat) (bc : BChain) :
    Nat → Nat → Nat → Option (List Nat × Nat)
  | _, 0, _ => some ([], 0)
  | _, _ + 1, 0 => none
  | pos, size + 1, fuel + 1 =>
    match bc._read gdev pos (size + 1) with
    | none => none
    | some b =>
      if b.length = 0 then none
      else
        match bc.readAux gdev (pos + b.length) (size + 1 - b.length) fuel with
        | none => none
        | some (rest, cnt) => some (b ++ rest, cnt + 1)

/-- `BChain.read(pos, size)`: the bytes of logical range `[pos, pos+size)`. -/
def BChain.read (gdev : Nat → Nat) (bc : BChain) (pos size : Nat) :
    Option (List Nat) :=
  (bc.readAux gdev pos size size).map Prod.fst

/-- Number of underlying bounded reads (`_read` calls) a `read` performs. -/
def BChain.readCount (gdev : Nat → Nat) (bc : BChain) (pos size : Nat) :
    Option Nat :=
  (bc.readAux gdev pos size size).map Prod.snd

/-! ## Directory entry decoder (`get_dirents`) -/

/-- The `de['type']` values assigned by `get_dirents`. -/
inductive DType
  | lfn | deln | vol | deld | delf | dir | file
  deriving DecidableEq, Repr

/-- One decoded directory entry (`de` in `get_dirents`): the fields of the
dictionary that survive to the returned list.  `name` is `none` for the
deleted entries, whose branch in the source never assigns `de['name']`;
its value is the list of Unicode code units of the Python string. -/
structure Dirent where
  type : DType
  name : Option (List Nat)
  size : Nat
  cluster : Nat
  flags : Nat
  attrs : List Char
  ofs : Nat
  offs : Nat
  deriving DecidableEq, Repr

/-- `ATTR_MASK_LIST` and the attribute-string rendering loop. -/
def attrsOf (flags : Nat) : List Char :=
  [('v', 0x08), ('d', 0x10), ('r', 0x01), ('h', 0x02), ('s', 0x04),
    ('a', 0x20)].map (fun am => if flags &&& am.2 ≠ 0 then am.1 else '-')

/-- Bytes Python's `str.rstrip()` removes: ASCII whitespace. -/
def isSpaceByte (b : Nat) : Bool :=
  b = 0x20 ∨ b = 0x09 ∨ b = 0x0A ∨ b = 0x0B ∨ b = 0x0C ∨ b = 0x0D

/-- `str.rstrip()` on a byte string: drop trailing whitespace bytes. -/
def rstripB (l : List Nat) : List Nat :=
  (l.reverse.dropWhile isSpaceByte).reverse

/-- Python `dict.__setitem__`: overwrite in place if the key is present,
append otherwise (dicts preserve insertion order). -/
def dictInsert (d : List (Nat × List Nat)) (k : Nat) (v : List Nat) :
    List (Nat × List Nat) :=
  if (d.map Prod.fst).contains k then
    d.map (fun p => if p.1 = k then (k, v) else p)
  else d ++ [(k, v)]

/-- Python `sorted` on a list of numbers: stable ascending insertion sort. -/
def insertSorted (x : Nat) : List Nat → List Nat
  | [] => [x]
  | y :: ys => if x ≤ y then x :: y :: ys else y :: insertSorted x ys

/-- Python `sorted` on a list of numbers. -/
def sortNat (l : List Nat) : List Nat := l.foldr insertSorted []

/-- The LFN-name decoding loop of `get_dirents`: walk the byte string two
bytes at a time, combine each pair as a little-endian UCS-16 unit, stop at
the first all-zero pair. -/
def decodeUCS16 : List Nat → List Nat
  | l :: h :: rest =>
    if l = 0 ∧ h = 0 then [] else le16of l h :: decodeUCS16 rest
  | _ => []

/-- The transient LFN accumulator of the `get_dirents` scan loop:
`cur_lfn_parts`, `cur_lfn_cksum`, `cur_lfn_maxnum`, `cur_lfn_offs`
(all reset to empty/None after every terminal slot).  Note the source
never assigns `cur_lfn_cksum`, so it stays `none` throughout a scan. -/
structure LfnSt where
  parts : List (Nat × List Nat)
  cksum : Option Nat
  maxnum : Option Nat
  loffs : Option Nat
  deriving Repr

/-- The initial/reset accumulator state. -/
def LfnSt.empty : LfnSt := ⟨[], none, none, none⟩

/-- Failure of one of the `assert` statements inside `get_dirents`
(invalid LFN sequencing or fragment-count mismatch). -/
inductive DirErr
  | corrupt
  deriving DecidableEq, Repr

/-- The body of the `get_dirents` scan loop, processing the remaining
32-byte slots.  `offsFn` is `d_chain.offs` (mapping a logical byte offset
to the reportable absolute offset); `i` is the index of the current slot;
`st` is the LFN accumulator.  Each slot's fixed fields are decoded per
`DENTRY_DICT`; classification and state updates follow the source's
branch structure line by line.  The source's
`assert(not (len(de['namu']) % 1))` is omitted: `x % 1 == 0` holds for
every `x`, so that assert can never fire. -/
def get_direntsAux (offsFn : Nat → Nat) :
    List (List Nat) → Nat → LfnSt → Except DirErr (List Dirent)
  | [], _, _ => .ok []
  | buf :: rest, i, st =>
    if buf = List.replicate 32 0 then .ok []
    else
      let nam := buf.take 8
      let ext := (buf.drop 8).take 3
      let size := buf.getD 0x1C 0 + 256 * buf.getD 0x1D 0
        + 65536 * buf.getD 0x1E 0 + 16777216 * buf.getD 0x1F 0
      let cluster := le16of (buf.getD 0x1A 0) (buf.getD 0x1B 0)
      let flags := buf.getD 0x0B 0
      let lfncksum := buf.getD 0x0D 0
      let lfnf := buf.getD 0x00 0
      let ofs := offsFn (i * 32)
      let attrs := attrsOf flags
      if flags = 0x0F then
        -- long-name slot: assert(de['cluster'] == 0x0000)
        if cluster ≠ 0 then .error .corrupt
        else if buf.getD 0 0 = 0xE5 then
          -- deleted long-name fragment ('deln'): scanned, state untouched
          get_direntsAux offsFn rest (i + 1) st
        else
          let lfni := lfnf &&& 0xBF
          let maxnum1 := if lfnf &&& 0x40 ≠ 0 then some lfni else st.maxnum
          let okMax := match maxnum1 with
            | none => true
            | some m => decide (lfni ≤ m)
          let okCk := match st.cksum with
            | none => true
            | some c => decide (c = lfncksum)
          if lfni > 0 ∧ lfni ≤ 20 ∧ okMax = true ∧ okCk = true then
            let frag := (buf.drop 1).take 10 ++ (buf.drop 0x0E).take 12
              ++ (buf.drop 0x1C).take 4
            let parts1 := dictInsert st.parts lfni frag
            let loffs1 := if st.loffs = none then some ofs else st.loffs
            get_direntsAux offsFn rest (i + 1) ⟨parts1, st.cksum, maxnum1, loffs1⟩
          else .error .corrupt
      else
        let res : Except DirErr Dirent :=
          if flags = 0x08 then
            .ok ⟨.vol, some (rstripB nam ++ rstripB ext), size, cluster,
              flags, attrs, ofs, ofs⟩
          else if buf.getD 0 0 = 0xE5 then
            .ok ⟨if flags &&& 0x10 ≠ 0 then .deld else .delf, none, size,
              cluster, flags, attrs, ofs, ofs⟩
          else if st.parts ≠ [] then
            -- assert(cur_lfn_maxnum == len(cur_lfn_parts.keys()))
            if st.maxnum = some st.parts.length then
              let namu := ((sortNat (st.parts.map Prod.fst)).map
                (fun key => (st.parts.lookup key).getD [])).flatten
              let name := decodeUCS16 namu
              -- cur_lfn_offs is necessarily set once parts is nonempty
              .ok ⟨if flags &&& 0x10 ≠ 0 then .dir else .file, some name,
                size, cluster, flags, attrs, ofs, st.loffs.getD ofs⟩
            else .error .corrupt
          else
            let sname := rstripB nam ++
              (if rstripB ext ≠ [] then 0x2E :: rstripB ext else [])
            .ok ⟨if flags &&& 0x10 ≠ 0 then .dir else .file, some sname,
              size, cluster, flags, attrs, ofs, ofs⟩
        match res with
        | .error e => .error e
        | .ok de =>
          match get_direntsAux offsFn rest (i + 1) LfnSt.empty with
          | .error e => .error e
          | .ok tail => .ok (de :: tail)

/-- `get_dirents` over a directory's slot table.  `slots` is the list of
32-byte buffers `d_chain.read(i*32, 32)` for `i < len(d_chain)/32`;
`offsFn` is `d_chain.offs`. -/
def get_dirents (offsFn : Nat → Nat) (slots : List (List Nat)) :
    Except DirErr (List Dirent) :=
  get_direntsAux offsFn slots 0 LfnSt.empty

/-- Reading the slot table of a directory chain: `d_chain.read(i*32, 32)`
for each slot index, `none` if any read fails. -/
def readSlots (gdev : Nat → Nat) (bc : BChain) : Option (List (List Nat)) :=
  (List.range (bc.len / 32)).mapM (fun i => bc.read gdev (i * 32) 32)

/-- `get_dirents(d_chain)` as called by the path resolver: read the slot
table from the chain, then decode it. -/
def get_direntsChain (gdev : Nat → Nat) (bc : BChain) :
    Option (Except DirErr (List Dirent)) :=
  (readSlots gdev bc).map (get_dirents bc.offs)

/-! ## FAT chain walker (`get_clist`) -/

/-- Outcomes of `get_clist` other than a successful cluster list:
the three `assert`s (volume entries must have zero size/cluster, the
entry type must be dir/file, the first cluster must be in range), a bad
FAT signature, a failed FAT read (`IndexError`), and fuel exhaustion —
the last marks a walk that the source, which has no fuel, never exits. -/
inductive ClErr
  | assertVol | assertType | assertRange | badFatSig | readErr | fuelOut
  deriving DecidableEq, Repr

/-- The FAT-table `BChain` built by `get_clist`:
`BChain(br['dev'], [0], bsize=spf*bps, boffs=fat1offs)`.  (`br['dev']` is
the same handle as the module-level one.) -/
def fatBChain (gdev : Nat → Nat) (fat1offs spfbps : Nat) : BChain :=
  ⟨gdev, [0], spfbps, fat1offs⟩

/-- One FAT lookup of the walk loop:
`struct.unpack('<H', fat1bchain.read(c*2, 2))[0]`. -/
def fatLookup (gdev : Nat → Nat) (fat1offs spfbps c : Nat) : Option Nat :=
  ((fatBChain gdev fat1offs spfbps).read gdev (c * 2) 2).map
    (fun b => le16of (b.getD 0 0) (b.getD 1 0))

/-- The `while` loop of `get_clist`, instrumented: returns both the
accumulated cluster list `clist` and the list of clusters whose FAT entry
was looked up, in order.  The source loop is unbounded; `fuel` makes the
model total, with `.error .fuelOut` when the loop has not exited within
`fuel` iterations. -/
def clistWalk (lookup : Nat → Option Nat) :
    Nat → Nat → Except ClErr (List Nat × List Nat)
  | 0, _ => .error .fuelOut
  | fuel + 1, c =>
    if 2 ≤ c ∧ c < 0xFFF7 then
      match lookup c with
      | none => .error .readErr
      | some c2 =>
        match clistWalk lookup fuel c2 with
        | .error e => .error e
        | .ok (cs, ls) => .ok (c :: cs, c :: ls)
    else .ok ([], [])

/-- `get_clist(br, de)`: cluster list of the entry with type `detype`,
size `size` and first cluster `cluster`.  Uses only the fields of `br`
the source touches: the device handle, `br['fat1offs']` and
`br['spf']*br['bps']`. -/
def get_clist (gdev : Nat → Nat) (fat1offs spfbps fuel : Nat)
    (detype : DType) (size cluster : Nat) : Except ClErr (List Nat) :=
  if detype = .vol then
    if size = 0 ∧ cluster = 0 then .ok [] else .error .assertVol
  else if detype = .dir ∨ detype = .file then
    if (2 ≤ cluster ∧ cluster ≤ 0xFFF8) ∨ (size = 0 ∧ cluster = 0) then
      if (fatBChain gdev fat1offs spfbps).read gdev 0 4
          = some [0xF8, 0xFF, 0xFF, 0xFF] then
        match clistWalk (fatLookup gdev fat1offs spfbps) fuel cluster with
        | .error e => .error e
        | .ok (cs, _) => .ok cs
      else .error .badFatSig
    else .error .assertRange
  else .error .assertType

/-! ## Boot record parsing (`parse(BR_DICT, ...)` plus the `__main__`
asserts) -/

/-- The fields `parse(BR_DICT, br_buf)` extracts from the boot sector. -/
structure BootRec where
  bps : Nat
  spc : Nat
  rsvd_sects : Nat
  n_fats : Nat
  rdents : Nat
  spf : Nat
  spt : Nat
  heads : Nat
  magic : Nat
  deriving DecidableEq, Repr

/-- Little-endian 16-bit field of a byte buffer at offset `o`. -/
def bufLE16 (buf : List Nat) (o : Nat) : Nat :=
  le16of (buf.getD o 0) (buf.getD (o + 1) 0)

/-- `parse(BR_DICT, br_buf)`: decode the fixed-offset geometry fields. -/
def parseBR (buf : List Nat) : BootRec :=
  ⟨bufLE16 buf 0x0B, buf.getD 0x0D 0, bufLE16 buf 0x0E, buf.getD 0x10 0,
    bufLE16 buf 0x11, bufLE16 buf 0x16, bufLE16 buf 0x18, bufLE16 buf 0x1A,
    bufLE16 buf 0x1FE⟩

/-- Boot-record parsing including the two `assert`s of `__main__`
(`br['magic'] == 0xAA55` and `br['bps'] in (256, 512, 2048)`): `none`
models the fatal `AssertionError`. -/
def parseBRChecked (buf : List Nat) : Option BootRec :=
  let br := parseBR buf
  if br.magic = 0xAA55 ∧ (br.bps = 256 ∨ br.bps = 512 ∨ br.bps = 2048) then
    some br
  else none

/-! ## Path resolver and directory cache (`_ls_path`) -/

/-- Result of `_ls_path`: either the listed entries (what `ls_dirents`
would print), the not-found message for an unresolvable path prefix, or
an internal failure (failed read, corrupt directory, failed `get_clist`).
Paths are represented as their list of components (each a byte string);
`os.path.join` becomes list append and the root `os.path.sep` is `[]`. -/
inductive LsRes
  | ok (entries : List Dirent)
  | notFound (path : List (List Nat))
  | err
  deriving DecidableEq, Repr

/-- `ls_dirents` with the default size selector (`opts.size = None`):
deleted and long-name entries are skipped, each remaining entry is
printed; no `get_clist` call is made.  Modelled as returning the entries
printed. -/
def ls_dirents (de_list : List Dirent) : List Dirent :=
  de_list.filter (fun de =>
    !(de.type = .delf ∨ de.type = .deld ∨ de.type = .lfn ∨ de.type = .deln))

/-- First-match lookup in the directory cache (a Python dict keyed by
path; insertion order is preserved and keys are unique). -/
def cacheFind (cache : List (List (List Nat) × BChain))
    (p : List (List Nat)) : Option BChain :=
  match cache with
  | [] => none
  | (q, bc) :: rest => if q = p then some bc else cacheFind rest p

/-- `_ls_path(br, dir_cache, path_head_str, path_tail_list)`, instrumented
with the number of `get_clist` invocations it performs.  Returns
`(result, final cache, walk count)`.  `c0offs`/`spcbps` are
`br['c0offs']` and `br['spc']*br['bps']`; `clistFuel` is the fuel handed
to each `get_clist` call. -/
def ls_pathAux (gdev : Nat → Nat) (fat1offs spfbps spcbps c0offs : Nat)
    (clistFuel : Nat) :
    List (List (List Nat) × BChain) → List (List Nat) → List (List Nat) →
      LsRes × List (List (List Nat) × BChain) × Nat
  | cache, head, tail =>
    match cacheFind cache head with
    | none => (.err, cache, 0)
    | some bc =>
      match get_direntsChain gdev bc with
      | none => (.err, cache, 0)
      | some (.error _) => (.err, cache, 0)
      | some (.ok de_list) =>
        match tail with
        | [] => (.ok (ls_dirents de_list), cache, 0)
        | p :: rest =>
          let head1 := head ++ [p]
          match de_list.find? (fun de =>
              (de.type = .file ∨ de.type = .dir) ∧ de.name = some p) with
          | none => (.notFound head1, cache, 0)
          | some de =>
            if de.type = .file then (.ok (ls_dirents [de]), cache, 0)
            else
              match get_clist gdev fat1offs spfbps clistFuel de.type
                  de.size de.cluster with
              | .error _ => (.err, cache, 1)
              | .ok clist =>
                let cache1 :=
                  if (cacheFind cache head1).isNone then
                    cache ++ [(head1, (⟨gdev, clist, spcbps, c0offs⟩ : BChain))]
                  else cache
                let r := ls_pathAux gdev fat1offs spfbps spcbps c0offs
                  clistFuel cache1 head1 rest
                (r.1, r.2.1, r.2.2 + 1)

/-! ## Helper lemmas -/

theorem getD_append_lt (l l' : List Nat) (n : Nat) (h : n < l.length) :
    (l ++ l').getD n 0 = l.getD n 0 := by
  simp [List.getD, List.getElem?_append, h]

theorem getD_append_ge (l l' : List Nat) (n : Nat) (h : l.length ≤ n) :
    (l ++ l').getD n 0 = l'.getD (n - l.length) 0 := by
  simp [List.getD, List.getElem?_append, Nat.not_lt.2 h]

/-- Division and remainder are unchanged while staying inside one block. -/
theorem divmod_add_small (pos i bsize : Nat) (hb : 0 < bsize)
    (h : pos % bsize + i < bsize) :
    (pos + i) / bsize = pos / bsize ∧ (pos + i) % bsize = pos % bsize + i := by
  constructor
  · conv_lhs => rw [← Nat.div_add_mod pos bsize, Nat.add_assoc]
    rw [Nat.mul_add_div hb, Nat.div_eq_of_lt h, Nat.add_zero]
  · conv_lhs => rw [← Nat.div_add_mod pos bsize, Nat.add_assoc]
    rw [Nat.mul_add_mod, Nat.mod_eq_of_lt h]

/-- `offs` is affine inside a block. -/
theorem BChain.offs_add (bc : BChain) (pos i : Nat) (hb : 0 < bc.bsize)
    (h : pos % bc.bsize + i < bc.bsize) :
    bc.offs (pos + i) = bc.offs pos + i := by
  obtain ⟨hd, hm⟩ := divmod_add_small pos i bc.bsize hb h
  unfold BChain.offs
  rw [hd, hm]
  omega

/-! ## C9: boot-record parsing succeeds iff the signature and
bytes-per-sector fields are valid -/

/-- C9: for every 512-byte boot sector, parsing (with the `__main__`
asserts) succeeds if and only if the little-endian 16-bit field at offset
0x1FE equals 0xAA55 and the little-endian 16-bit bytes-per-sector field at
offset 0x0B is one of 256, 512, 2048; otherwise it fails fatally. -/
theorem c9_parse_br_iff (buf : List Nat) (hlen : buf.length = 512) :
    (parseBRChecked buf).isSome ↔
      (le16of (buf.getD 0x1FE 0) (buf.getD 0x1FF 0) = 0xAA55 ∧
        (le16of (buf.getD 0x0B 0) (buf.getD 0x0C 0) = 256 ∨
          le16of (buf.getD 0x0B 0) (buf.getD 0x0C 0) = 512 ∨
          le16of (buf.getD 0x0B 0) (buf.getD 0x0C 0) = 2048)) := by
  simp only [parseBRChecked, parseBR, bufLE16]
  split
  · next h => simp only [Option.isSome_some, true_iff]; exact_mod_cast h
  · next h =>
    simp only [Option.isSome_none, Bool.false_eq_true, false_iff]
    exact_mod_cast h

/-- A well-formed 512-byte boot sector: bytes-per-sector 512, valid magic. -/
def brBufOk : List Nat :=
  (List.range 512).map (fun i =>
    if i = 0x0C then 2 else if i = 0x1FE then 0x55
    else if i = 0x1FF then 0xAA else 0)

theorem c9_parse_br_iff_witness :
    brBufOk.length = 512 ∧
      ((parseBRChecked brBufOk).isSome ↔
        (le16of (brBufOk.getD 0x1FE 0) (brBufOk.getD 0x1FF 0) = 0xAA55 ∧
          (le16of (brBufOk.getD 0x0B 0) (brBufOk.getD 0x0C 0) = 256 ∨
            le16of (brBufOk.getD 0x0B 0) (brBufOk.getD 0x0C 0) = 512 ∨
            le16of (brBufOk.getD 0x0B 0) (brBufOk.getD 0x0C 0) = 2048))) :=
  ⟨by simp [brBufOk], c9_parse_br_iff brBufOk (by simp [brBufOk])⟩

/-! ## C10: `BChain` reads use the module-level handle, not the stored one -/

theorem readAux_ignores_f (gdev f1 f2 : Nat → Nat) (l : List Nat) (b o : Nat) :
    ∀ fuel pos size,
      BChain.readAux gdev ⟨f1, l, b, o⟩ pos size fuel
        = BChain.readAux gdev ⟨f2, l, b, o⟩ pos size fuel := by
  intro fuel
  induction fuel with
  | zero =>
    intro pos size
    cases size with
    | zero => rfl
    | succ s => rfl
  | succ fuel ih =>
    intro pos size
    cases size with
    | zero => rfl
    | succ s =>
      show (match BChain._read gdev (⟨f1, l, b, o⟩ : BChain) pos (s + 1) with
        | none => none
        | some bb =>
          if bb.length = 0 then none
          else
            match BChain.readAux gdev (⟨f1, l, b, o⟩ : BChain) (pos + bb.length)
                (s + 1 - bb.length) fuel with
            | none => none
            | some (rest, cnt) => some (bb ++ rest, cnt + 1))
        = (match BChain._read gdev (⟨f2, l, b, o⟩ : BChain) pos (s + 1) with
        | none => none
        | some bb =>
          if bb.length = 0 then none
          else
            match BChain.readAux gdev (⟨f2, l, b, o⟩ : BChain) (pos + bb.length)
                (s + 1 - bb.length) fuel with
            | none => none
            | some (rest, cnt) => some (bb ++ rest, cnt + 1))
      have hr : BChain._read gdev (⟨f2, l, b, o⟩ : BChain) pos (s + 1)
          = BChain._read gdev (⟨f1, l, b, o⟩ : BChain) pos (s + 1) := rfl
      rw [hr]
      cases BChain._read gdev (⟨f1, l, b, o⟩ : BChain) pos (s + 1) with
      | none => rfl
      | some bb =>
        dsimp only
        rw [ih]

/-- C10: `BChain` reads do not use the device handle stored in the
instance.  First conjunct: the result of `read` is entirely independent of
the constructor-supplied handle `f`.  Second and third conjuncts: a
concrete chain built over the handle `fun _ => 9` read under module-level
handle `fun _ => 7` yields the module-level device's bytes `[7, 7]`, not
the stored handle's bytes `[9, 9]`. -/
theorem c10_read_uses_global_handle :
    (∀ (gdev f1 f2 : Nat → Nat) (l : List Nat) (b o pos size : Nat),
      BChain.read gdev ⟨f1, l, b, o⟩ pos size
        = BChain.read gdev ⟨f2, l, b, o⟩ pos size) ∧
    BChain.read (fun _ => 7) ⟨fun _ => 9, [0], 512, 0⟩ 0 2 = some [7, 7] ∧
    BChain.read (fun _ => 7) ⟨fun _ => 9, [0], 512, 0⟩ 0 2 ≠ some [9, 9] := by
  refine ⟨fun gdev f1 f2 l b o pos size => ?_, by decide, by decide⟩
  unfold BChain.read
  rw [readAux_ignores_f]

/-! ## C4: the first-cluster range check of `get_clist` -/

/-- A device whose FAT area (at offset 0) carries only the required
signature; every FAT entry reads as 0. -/
def fatSigDev : Nat → Nat := fun o =>
  if o = 0 then 0xF8 else if o < 4 then 0xFF else 0

/-- C4 counterexample: the claim states that `get_clist` rejects
`cluster = 0xFFF8` with nonzero size, but the source's assert uses
`<= 0xFFF8`, so this call is accepted and returns the empty chain. -/
theorem c4_counterexample :
    get_clist fatSigDev 0 512 10 .file 1 0xFFF8 = .ok [] := rfl

/-- The walk loop can only fail by running out of fuel or by a failed FAT
read; it never produces the assert/signature error codes. -/
theorem clistWalk_err_shape (lookup : Nat → Option Nat) :
    ∀ fuel c e, clistWalk lookup fuel c = .error e →
      e = .fuelOut ∨ e = .readErr := by
  intro fuel
  induction fuel with
  | zero =>
    intro c e h
    simp only [clistWalk] at h
    exact Or.inl (Except.error.inj h).symm
  | succ f ih =>
    intro c e h
    simp only [clistWalk] at h
    split at h
    · split at h
      · exact Or.inr (Except.error.inj h).symm
      · next c2 hlk =>
        split at h
        · next e1 heq1 =>
          cases Except.error.inj h
          exact ih c2 e heq1
        · exact absurd h (by simp)
    · exact absurd h (by simp)

/-- C4 amended: the walker accepts a first cluster in the CLOSED range
[2, 0xFFF8] — 0xFFF8 included — or `size = 0 ∧ cluster = 0`; for every
other value it fails the range assert, and the `size = 0 ∧ cluster = 0`
case yields the empty chain (given the FAT-signature check passes). -/
theorem c4_amended (gdev : Nat → Nat) (fat1offs spfbps fuel size cluster : Nat)
    (dt : DType) (hdt : dt = .dir ∨ dt = .file) :
    (get_clist gdev fat1offs spfbps fuel dt size cluster = .error .assertRange
      ↔ ¬((2 ≤ cluster ∧ cluster ≤ 0xFFF8) ∨ (size = 0 ∧ cluster = 0))) ∧
    (size = 0 → cluster = 0 → 0 < fuel →
      (fatBChain gdev fat1offs spfbps).read gdev 0 4
          = some [0xF8, 0xFF, 0xFF, 0xFF] →
      get_clist gdev fat1offs spfbps fuel dt size cluster = .ok []) := by
  have hvol : ¬dt = .vol := by rcases hdt with h | h <;> simp [h]
  have hshape := clistWalk_err_shape (fatLookup gdev fat1offs spfbps)
  constructor
  · unfold get_clist
    rw [if_neg hvol, if_pos hdt]
    by_cases hrange : (2 ≤ cluster ∧ cluster ≤ 0xFFF8) ∨ (size = 0 ∧ cluster = 0)
    · rw [if_pos hrange]
      constructor
      · intro heq
        exfalso
        split at heq
        · split at heq
          · next e1 heq1 =>
            have he := Except.error.inj heq
            rcases hshape fuel cluster e1 heq1 with h1 | h1 <;> simp [h1] at he
          · exact absurd heq (by simp)
        · exact absurd (Except.error.inj heq) (by simp)
      · intro hneg
        exact absurd hrange hneg
    · rw [if_neg hrange]
      simp [hrange]
  · intro hsz hcl hfuel hsig
    unfold get_clist
    rw [if_neg hvol, if_pos hdt,
      if_pos (Or.inr ⟨hsz, hcl⟩), if_pos hsig]
    obtain ⟨f, rfl⟩ : ∃ f, fuel = f + 1 :=
      ⟨fuel - 1, by omega⟩
    subst hcl
    simp [clistWalk]

theorem c4_amended_witness :
    (DType.dir = DType.dir ∨ DType.dir = DType.file) ∧
      ((get_clist fatSigDev 0 512 1 .dir 0 0 = .error .assertRange
        ↔ ¬((2 ≤ 0 ∧ 0 ≤ 0xFFF8) ∨ (0 = 0 ∧ 0 = 0))) ∧
      ((0:Nat) = 0 → (0:Nat) = 0 → 0 < 1 →
        (fatBChain fatSigDev 0 512).read fatSigDev 0 4
            = some [0xF8, 0xFF, 0xFF, 0xFF] →
        get_clist fatSigDev 0 512 1 .dir 0 0 = .ok [])) :=
  ⟨Or.inl rfl, c4_amended fatSigDev 0 512 1 0 0 .dir (Or.inl rfl)⟩

/-! ## C5: the walk loop does not terminate on a cyclic FAT -/

/-- A FAT (at device offset 0, valid signature) whose entry for cluster 5
points back to cluster 5 itself: bytes 10,11 hold little-endian 5. -/
def cyclicFatDev : Nat → Nat := fun o =>
  if o = 0 then 0xF8 else if o < 4 then 0xFF
  else if o = 10 then 5 else 0

theorem cyclic_walk_no_fuel_suffices :
    ∀ fuel, clistWalk (fatLookup cyclicFatDev 0 512) fuel 5
      = .error .fuelOut := by
  intro fuel
  induction fuel with
  | zero => rfl
  | succ f ih =>
    have hl : fatLookup cyclicFatDev 0 512 5 = some 5 := by decide
    show (if 2 ≤ 5 ∧ 5 < 0xFFF7 then
        match fatLookup cyclicFatDev 0 512 5 with
        | none => Except.error ClErr.readErr
        | some c2 =>
          match clistWalk (fatLookup cyclicFatDev 0 512) f c2 with
          | .error e => .error e
          | .ok (cs, ls) => .ok (5 :: cs, 5 :: ls)
      else Except.ok ([], [])) = Except.error ClErr.fuelOut
    rw [if_pos (by omega : 2 ≤ 5 ∧ 5 < 0xFFF7), hl]
    show (match clistWalk (fatLookup cyclicFatDev 0 512) f 5 with
      | .error e => Except.error e
      | .ok (cs, ls) => Except.ok (5 :: cs, 5 :: ls))
        = Except.error ClErr.fuelOut
    rw [ih]

/-- C5: on a FAT containing a cluster cycle (here cluster 5 whose entry
points back to 5), the chain walk never terminates: no amount of fuel
makes the modelled loop exit, so `get_clist` reports fuel exhaustion for
every fuel value — the source loop, which has no fuel, no cycle detection
and no length bound, runs forever. -/
theorem c5_cyclic_fat_walk_diverges :
    ∀ fuel, get_clist cyclicFatDev 0 512 fuel .file 100 5
      = .error .fuelOut := by
  intro fuel
  unfold get_clist
  rw [if_neg (by simp), if_pos (Or.inr rfl),
    if_pos (by omega : (2 ≤ 5 ∧ 5 ≤ 0xFFF8) ∨ (100 = 0 ∧ 5 = 0)),
    if_pos (by decide)]
  rw [cyclic_walk_no_fuel_suffices fuel]

/-! ## C6: `read` decomposes into per-block bounded reads -/

/-- Characterisation of one bounded read inside the valid range: it
returns the device bytes at consecutive `offs` positions, never more than
the caller asked for and never past the end of the current block. -/
theorem _read_spec (gdev : Nat → Nat) (bc : BChain) (pos size : Nat)
    (hb : 0 < bc.bsize) (hn : pos / bc.bsize < bc.blist.length) :
    ∃ size1, bc._read gdev pos size
        = some ((List.range size1).map (fun i => gdev (bc.offs pos + i)))
      ∧ size1 = min size (bc.bsize - pos % bc.bsize) := by
  unfold BChain._read
  rw [if_pos hn]
  refine ⟨_, rfl, ?_⟩
  split
  · next h => omega
  · next h => omega

/-- The loop of `read` meets its specification: inside the chain's
logical range it returns exactly the requested bytes, each taken from the
device at the absolute offset `offs` computes for its logical position. -/
theorem readAux_spec (gdev : Nat → Nat) (bc : BChain) (hb : 0 < bc.bsize) :
    ∀ fuel pos size, size ≤ fuel → pos + size ≤ bc.len →
      ∃ cnt, bc.readAux gdev pos size fuel
        = some ((List.range size).map (fun i => gdev (bc.offs (pos + i))), cnt) := by
  intro fuel
  induction fuel with
  | zero =>
    intro pos size hsf hin
    have : size = 0 := by omega
    subst this
    exact ⟨0, rfl⟩
  | succ fuel ih =>
    intro pos size hsf hin
    cases size with
    | zero => exact ⟨0, rfl⟩
    | succ s =>
      have hp : pos % bc.bsize < bc.bsize := Nat.mod_lt _ hb
      have hn : pos / bc.bsize < bc.blist.length := by
        have hpos : pos < bc.blist.length * bc.bsize := by
          unfold BChain.len at hin
          omega
        exact Nat.div_lt_of_lt_mul (by rwa [Nat.mul_comm] at hpos)
      obtain ⟨size1, hread, hsz1⟩ := _read_spec gdev bc pos (s + 1) hb hn
      have hsz1pos : 0 < size1 := by omega
      have hsz1le : size1 ≤ s + 1 := by omega
      have hsz1blk : pos % bc.bsize + size1 ≤ bc.bsize := by omega
      obtain ⟨cnt, hrec⟩ := ih (pos + size1) (s + 1 - size1) (by omega) (by omega)
      refine ⟨cnt + 1, ?_⟩
      show (match bc._read gdev pos (s + 1) with
        | none => none
        | some b =>
          if b.length = 0 then none
          else
            match bc.readAux gdev (pos + b.length) (s + 1 - b.length) fuel with
            | none => none
            | some (rest, c) => some (b ++ rest, c + 1))
        = some ((List.range (s + 1)).map (fun i => gdev (bc.offs (pos + i))),
            cnt + 1)
      rw [hread]
      dsimp only
      rw [List.length_map, List.length_range]
      rw [if_neg (by omega)]
      rw [hrec]
      dsimp only
      congr 1
      congr 1
      have hsplit : s + 1 = size1 + (s + 1 - size1) := by omega
      rw [hsplit, List.range_add, List.map_append, List.map_map]
      congr 1
      · apply List.map_congr_left
        intro i hi
        have hilt : i < size1 := List.mem_range.1 hi
        rw [BChain.offs_add bc pos i hb (by omega)]
      · have hn2 : size1 + (s + 1 - size1) - size1 = s + 1 - size1 := by omega
        rw [hn2]
        apply List.map_congr_left
        intro i _
        simp only [Function.comp]
        congr 2
        omega

/-- The example chain of the claim: blocks [3, 7, 9], block size 512,
area base 0. -/
def bc379 (gdev : Nat → Nat) : BChain := ⟨gdev, [3, 7, 9], 512, 0⟩

theorem bc379_read1 (gdev : Nat → Nat) :
    (bc379 gdev)._read gdev 400 600
      = some ((List.range 112).map (fun i => gdev (1936 + i))) := by
  norm_num [BChain._read, bc379]

theorem bc379_read2 (gdev : Nat → Nat) :
    (bc379 gdev)._read gdev 512 488
      = some ((List.range 488).map (fun i => gdev (3584 + i))) := by
  norm_num [BChain._read, bc379]

theorem bc379_readAux (gdev : Nat → Nat) :
    (bc379 gdev).readAux gdev 400 600 600
      = some (((List.range 112).map (fun i => gdev (1936 + i)))
          ++ ((List.range 488).map (fun i => gdev (3584 + i))), 2) := by
  rw [show (600 : Nat) = 599 + 1 from rfl]
  simp only [BChain.readAux]
  rw [bc379_read1]
  dsimp only
  rw [List.length_map, List.length_range]
  rw [if_neg (by norm_num)]
  norm_num
  rw [show (488 : Nat) = 487 + 1 from rfl, show (599 : Nat) = 598 + 1 from rfl]
  simp only [BChain.readAux]
  rw [bc379_read2]
  dsimp only
  rw [List.length_map, List.length_range]
  rw [if_neg (by norm_num)]
  norm_num
  rw [show BChain.readAux gdev (bc379 gdev) 1000 0 598 = some ([], 0) from rfl]
  dsimp only
  rw [List.append_nil]

/-- C6: for every chain and every in-range position/size, `read(pos, size)`
returns exactly `size` bytes, byte `i` being the device byte at the
absolute offset `offs(pos+i)` — i.e. the concatenation, in block-list
order, of per-block slices; each underlying bounded read stays within its
block (first conjunct); and on the concrete chain over blocks [3,7,9] with
block size 512, reading 600 bytes at offset 400 yields block-3 bytes
[400,512) followed by block-7 bytes [0,488) using exactly 2 (hence at
least two) underlying bounded reads (third conjunct). -/
theorem c6_read_blockwise :
    (∀ (gdev : Nat → Nat) (bc : BChain) (pos size : Nat) (b : List Nat),
      0 < bc.bsize → bc._read gdev pos size = some b →
        pos % bc.bsize + b.length ≤ bc.bsize ∧ b.length ≤ size) ∧
    (∀ (gdev : Nat → Nat) (bc : BChain) (pos size : Nat),
      0 < bc.bsize → pos + size ≤ bc.len →
        bc.read gdev pos size
          = some ((List.range size).map (fun i => gdev (bc.offs (pos + i))))) ∧
    (∀ gdev : Nat → Nat,
      (bc379 gdev).read gdev 400 600
          = some (((List.range 112).map (fun i => gdev (3 * 512 + 400 + i)))
              ++ ((List.range 488).map (fun i => gdev (7 * 512 + i))))
        ∧ (bc379 gdev).readCount gdev 400 600 = some 2 ∧ 2 ≤ 2) := by
  refine ⟨?_, ?_, ?_⟩
  · intro gdev bc pos size b hb hr
    have hn : pos / bc.bsize < bc.blist.length := by
      by_contra hn
      unfold BChain._read at hr
      rw [if_neg hn] at hr
      exact absurd hr (by simp)
    obtain ⟨size1, hread, hsz1⟩ := _read_spec gdev bc pos size hb hn
    rw [hread] at hr
    have hbv : b = (List.range size1).map (fun i => gdev (bc.offs pos + i)) :=
      (Option.some.inj hr).symm
    subst hbv
    rw [List.length_map, List.length_range]
    have hp : pos % bc.bsize < bc.bsize := Nat.mod_lt _ hb
    omega
  · intro gdev bc pos size hb hin
    obtain ⟨cnt, h⟩ := readAux_spec gdev bc hb size pos size le_rfl hin
    unfold BChain.read
    rw [h]
    rfl
  · intro gdev
    refine ⟨?_, ?_, le_rfl⟩
    · unfold BChain.read
      rw [bc379_readAux]
      norm_num
    · unfold BChain.readCount
      rw [bc379_readAux]
      rfl

theorem c6_read_blockwise_witness :
    0 < (bc379 (fun a => a)).bsize ∧
      400 + 600 ≤ (bc379 (fun a => a)).len ∧
      (bc379 (fun a => a)).read (fun a => a) 400 600
        = some ((List.range 600).map
            (fun i => (fun a => a) ((bc379 (fun a => a)).offs (400 + i)))) :=
  ⟨by norm_num [bc379], by norm_num [BChain.len, bc379],
    c6_read_blockwise.2.1 (fun a => a) (bc379 (fun a => a)) 400 600
      (by norm_num [bc379]) (by norm_num [BChain.len, bc379])⟩

/-! ## C8: the walk returns exactly the FAT-defined cluster sequence -/

/-- Modelled from the spec's words (refinement reference for C8): "starting
at the given cluster, while the current cluster ∈ [2, 0xFFF7), append it to
the result and fetch the next cluster as a little-endian 16-bit value at
FAT byte offset (cluster·2); stop when the value reaches the end-of-chain
range (≥0xFFF7) or a terminator (<2)".  `next` is the successor function
the FAT's bytes define. -/
inductive SpecFatChain (next : Nat → Nat) : Nat → List Nat → Prop
  | stop (c : Nat) (h : ¬(2 ≤ c ∧ c < 0xFFF7)) : SpecFatChain next c []
  | cons (c : Nat) (cs : List Nat) (h2 : 2 ≤ c) (h7 : c < 0xFFF7)
      (ht : SpecFatChain next (next c) cs) : SpecFatChain next c (c :: cs)

/-- A FAT lookup within the table's byte range returns the little-endian
16-bit value at FAT byte offset `c*2`. -/
theorem fatLookup_eq (gdev : Nat → Nat) (fat1offs spfbps c : Nat)
    (h : c * 2 + 2 ≤ spfbps) :
    fatLookup gdev fat1offs spfbps c
      = some (le16of (gdev (fat1offs + c * 2)) (gdev (fat1offs + (c * 2 + 1)))) := by
  have hb : 0 < (fatBChain gdev fat1offs spfbps).bsize := by
    simp only [fatBChain]
    omega
  have hin : c * 2 + 2 ≤ (fatBChain gdev fat1offs spfbps).len := by
    simp only [fatBChain, BChain.len, List.length_singleton]
    omega
  obtain ⟨cnt, hr⟩ :=
    readAux_spec gdev (fatBChain gdev fat1offs spfbps) hb 2 (c * 2) 2 le_rfl hin
  have ho : ∀ i, i < 2 →
      (fatBChain gdev fat1offs spfbps).offs (c * 2 + i)
        = fat1offs + (c * 2 + i) := by
    intro i hi
    have hd : (c * 2 + i) / spfbps = 0 := Nat.div_eq_of_lt (by omega)
    have hm : (c * 2 + i) % spfbps = c * 2 + i := Nat.mod_eq_of_lt (by omega)
    simp [BChain.offs, fatBChain, hd, hm]
  unfold fatLookup BChain.read
  rw [hr]
  rw [show List.range 2 = [0, 1] from rfl]
  simp only [List.map_cons, List.map_nil, Option.map_some]
  rw [ho 0 (by omega), ho 1 (by omega)]
  simp [List.getD]

/-- The walk loop, run on a FAT whose entries define the finite spec-level
chain `cs` within the table's bounds, returns exactly `cs`, and looks up
the FAT entry of exactly the appended clusters (in particular, none past
the last appended cluster). -/
theorem clistWalk_of_specChain (gdev : Nat → Nat) (fat1offs spfbps c : Nat)
    (cs : List Nat)
    (hch : SpecFatChain
      (fun c2 => le16of (gdev (fat1offs + c2 * 2)) (gdev (fat1offs + (c2 * 2 + 1))))
      c cs) :
    ∀ fuel, (∀ c2 ∈ cs, c2 * 2 + 2 ≤ spfbps) → cs.length < fuel →
      clistWalk (fatLookup gdev fat1offs spfbps) fuel c = .ok (cs, cs) := by
  induction hch with
  | stop c h =>
    intro fuel _ hf
    obtain ⟨f, rfl⟩ : ∃ f, fuel = f + 1 := ⟨fuel - 1, by omega⟩
    simp only [clistWalk]
    rw [if_neg h]
  | cons c cs h2 h7 ht ih =>
    intro fuel hbnd hf
    obtain ⟨f, rfl⟩ : ∃ f, fuel = f + 1 := ⟨fuel - 1, by omega⟩
    simp only [clistWalk]
    rw [if_pos ⟨h2, h7⟩,
      fatLookup_eq gdev fat1offs spfbps c (hbnd c (by simp))]
    show (match clistWalk (fatLookup gdev fat1offs spfbps) f
        (le16of (gdev (fat1offs + c * 2)) (gdev (fat1offs + (c * 2 + 1)))) with
      | .error e => Except.error e
      | .ok (cs2, ls) => Except.ok (c :: cs2, c :: ls))
        = Except.ok (c :: cs, c :: cs)
    rw [ih f (fun c2 hc2 => hbnd c2 (by simp [hc2])) (by simpa using hf)]

/-- C8: for a FAT whose entries define a finite chain from a valid first
cluster, `get_clist` returns exactly the ordered spec-level cluster
sequence, and the walk looks up the FAT entry of exactly the appended
clusters (little-endian 16-bit at byte offset cluster·2), performing no
lookup past the last appended cluster. -/
theorem c8_walk_returns_spec_chain (gdev : Nat → Nat)
    (fat1offs spfbps fuel size cluster : Nat) (cs : List Nat)
    (hch : SpecFatChain
      (fun c2 => le16of (gdev (fat1offs + c2 * 2)) (gdev (fat1offs + (c2 * 2 + 1))))
      cluster cs)
    (hbnd : ∀ c2 ∈ cs, c2 * 2 + 2 ≤ spfbps)
    (hfuel : cs.length < fuel)
    (hc : 2 ≤ cluster ∧ cluster < 0xFFF8)
    (hsig : (fatBChain gdev fat1offs spfbps).read gdev 0 4
      = some [0xF8, 0xFF, 0xFF, 0xFF]) :
    get_clist gdev fat1offs spfbps fuel .file size cluster = .ok cs
      ∧ clistWalk (fatLookup gdev fat1offs spfbps) fuel cluster
        = .ok (cs, cs) := by
  have hw := clistWalk_of_specChain gdev fat1offs spfbps cluster cs hch fuel
    hbnd hfuel
  refine ⟨?_, hw⟩
  unfold get_clist
  rw [if_neg (by simp), if_pos (Or.inr rfl),
    if_pos (Or.inl ⟨hc.1, by omega⟩), if_pos hsig, hw]

/-- A FAT whose chain from cluster 5 is 5 → 6 → 0xFFFF: entry 5 (bytes
10,11) holds 6, entry 6 (bytes 12,13) holds 0xFFFF. -/
def chain56Dev : Nat → Nat := fun o =>
  if o = 0 then 0xF8 else if o < 4 then 0xFF
  else if o = 10 then 6
  else if o = 12 then 0xFF else if o = 13 then 0xFF else 0

theorem c8_walk_returns_spec_chain_witness :
    SpecFatChain
      (fun c2 => le16of (chain56Dev (0 + c2 * 2)) (chain56Dev (0 + (c2 * 2 + 1))))
      5 [5, 6]
      ∧ (∀ c2 ∈ ([5, 6] : List Nat), c2 * 2 + 2 ≤ 512)
      ∧ ([5, 6] : List Nat).length < 10
      ∧ (2 ≤ 5 ∧ 5 < 0xFFF8)
      ∧ (fatBChain chain56Dev 0 512).read chain56Dev 0 4
          = some [0xF8, 0xFF, 0xFF, 0xFF]
      ∧ get_clist chain56Dev 0 512 10 .file 1 5 = .ok [5, 6]
      ∧ clistWalk (fatLookup chain56Dev 0 512) 10 5 = .ok ([5, 6], [5, 6]) := by
  have hch : SpecFatChain
      (fun c2 => le16of (chain56Dev (0 + c2 * 2)) (chain56Dev (0 + (c2 * 2 + 1))))
      5 [5, 6] := by
    apply SpecFatChain.cons 5 [6] (by omega) (by omega)
    show SpecFatChain _ 6 [6]
    apply SpecFatChain.cons 6 [] (by omega) (by omega)
    show SpecFatChain _ 0xFFFF []
    exact SpecFatChain.stop _ (by omega)
  have hmain := c8_walk_returns_spec_chain chain56Dev 0 512 10 1 5 [5, 6]
    hch (by decide) (by decide) (by omega) (by decide)
  exact ⟨hch, by decide, by decide, by omega, by decide, hmain.1, hmain.2⟩

/-! ## C2: which entry kinds `get_dirents` returns -/

/-- One deleted-file slot: name byte 0xE5, all other bytes 0. -/
def delSlot : List Nat := 0xE5 :: List.replicate 31 0

/-- C2 counterexample: a directory containing one deleted-file slot.  The
claim states the returned list holds only File/Dir/VolumeLabel entries,
but `get_dirents` returns the DeletedFile entry (its `de_list.append` runs
for every terminal slot, deleted ones included; filtering happens later in
`ls_dirents`). -/
theorem c2_counterexample :
    get_dirents (fun o => o) [delSlot]
      = .ok [⟨.delf, none, 0, 0, 0, ['-', '-', '-', '-', '-', '-'], 0, 0⟩] := by
  decide

/-- Inversion of the terminal-slot step of the decoder: a successful
result means the classification succeeded and the scan of the remaining
slots succeeded, and the entry list is the classified entry consed onto
the rest. -/
theorem direntsStep_inv (C : Except DirErr Dirent)
    (R : Except DirErr (List Dirent)) (l : List Dirent)
    (h : (match C with
      | Except.error e => (Except.error e : Except DirErr (List Dirent))
      | Except.ok de2 =>
        match R with
        | Except.error e => Except.error e
        | Except.ok tail => Except.ok (de2 :: tail)) = Except.ok l) :
    ∃ de2 tail, C = Except.ok de2 ∧ R = Except.ok tail ∧ l = de2 :: tail := by
  cases C with
  | error e => exact absurd h (by simp)
  | ok de2 =>
    cases R with
    | error e => exact absurd h (by simp)
    | ok tail => exact ⟨de2, tail, rfl, rfl, (Except.ok.inj h).symm⟩

/-- The decoder never returns LongNamePart or DeletedLongNamePart entries:
every entry it appends was classified in the terminal-slot branch, whose
type is one of vol/deld/delf/dir/file. -/
theorem get_direntsAux_no_lfn (offsFn : Nat → Nat) :
    ∀ (slots : List (List Nat)) (i : Nat) (st : LfnSt) (l : List Dirent),
      get_direntsAux offsFn slots i st = .ok l →
      ∀ de ∈ l, de.type ≠ .lfn ∧ de.type ≠ .deln := by
  intro slots
  induction slots with
  | nil =>
    intro i st l h de hde
    cases h
    cases hde
  | cons buf rest ih =>
    intro i st l h de hde
    simp only [get_direntsAux] at h
    split at h
    · cases h
      cases hde
    · split at h
      · -- long-name slot: either an error or a tail-recursive call
        (repeat' split at h) <;>
          first
            | exact ih _ _ _ h de hde
            | exact absurd h (by simp)
      · -- terminal slot
        obtain ⟨de2, tail, hC, hR, rfl⟩ := direntsStep_inv _ _ _ h
        rcases List.mem_cons.1 hde with rfl | hmem
        · -- the appended entry itself: its type is set explicitly in
          -- every classification branch
          (repeat' split at hC) <;>
            first
              | (cases hC; exact ⟨by simp, by simp⟩)
              | exact absurd hC (by simp)
        · exact ih _ _ _ hR de hmem

/-- C2 amended: for every slot table, the entries `get_dirents` returns
are only of the kinds File, Dir, VolumeLabel, DeletedFile and DeletedDir;
LongNamePart and DeletedLongNamePart entries are consumed internally and
never returned, but Deleted* entries ARE returned (they are filtered out
only by the printing layer `ls_dirents`). -/
theorem c2_amended (offsFn : Nat → Nat) (slots : List (List Nat))
    (l : List Dirent) (h : get_dirents offsFn slots = .ok l) :
    ∀ de ∈ l, de.type = .vol ∨ de.type = .deld ∨ de.type = .delf
      ∨ de.type = .dir ∨ de.type = .file := by
  intro de hde
  have hn := get_direntsAux_no_lfn offsFn slots 0 LfnSt.empty l h de hde
  cases hty : de.type <;> simp_all

theorem c2_amended_witness :
    get_dirents (fun o => o) [delSlot]
      = .ok [⟨.delf, none, 0, 0, 0, ['-', '-', '-', '-', '-', '-'], 0, 0⟩]
      ∧ ((⟨.delf, none, 0, 0, 0, ['-', '-', '-', '-', '-', '-'], 0, 0⟩ : Dirent)
          ∈ [(⟨.delf, none, 0, 0, 0, ['-', '-', '-', '-', '-', '-'], 0, 0⟩ : Dirent)])
      ∧ ((⟨.delf, none, 0, 0, 0, ['-', '-', '-', '-', '-', '-'], 0, 0⟩ : Dirent).type = .vol
        ∨ (⟨.delf, none, 0, 0, 0, ['-', '-', '-', '-', '-', '-'], 0, 0⟩ : Dirent).type = .deld
        ∨ (⟨.delf, none, 0, 0, 0, ['-', '-', '-', '-', '-', '-'], 0, 0⟩ : Dirent).type = .delf
        ∨ (⟨.delf, none, 0, 0, 0, ['-', '-', '-', '-', '-', '-'], 0, 0⟩ : Dirent).type = .dir
        ∨ (⟨.delf, none, 0, 0, 0, ['-', '-', '-', '-', '-', '-'], 0, 0⟩ : Dirent).type = .file) :=
  ⟨by decide, by decide,
    c2_amended (fun o => o) [delSlot]
      [⟨.delf, none, 0, 0, 0, ['-', '-', '-', '-', '-', '-'], 0, 0⟩]
      (by decide) _ (by decide)⟩

/-! ## Step lemmas for `ls_pathAux`: one per branch of the source -/

theorem ls_pathAux_nocache (gdev : Nat → Nat) (a b c d f : Nat)
    (cache : List (List (List Nat) × BChain)) (head tail : List (List Nat))
    (hcf : cacheFind cache head = none) :
    ls_pathAux gdev a b c d f cache head tail = (.err, cache, 0) := by
  conv_lhs => rw [ls_pathAux]
  simp only [hcf]

theorem ls_pathAux_badread (gdev : Nat → Nat) (a b c d f : Nat)
    (cache : List (List (List Nat) × BChain)) (head tail : List (List Nat))
    (bc : BChain) (hcf : cacheFind cache head = some bc)
    (hdc : get_direntsChain gdev bc = none) :
    ls_pathAux gdev a b c d f cache head tail = (.err, cache, 0) := by
  conv_lhs => rw [ls_pathAux]
  simp only [hcf, hdc]

theorem ls_pathAux_baddir (gdev : Nat → Nat) (a b c d f : Nat)
    (cache : List (List (List Nat) × BChain)) (head tail : List (List Nat))
    (bc : BChain) (e : DirErr) (hcf : cacheFind cache head = some bc)
    (hdc : get_direntsChain gdev bc = some (.error e)) :
    ls_pathAux gdev a b c d f cache head tail = (.err, cache, 0) := by
  conv_lhs => rw [ls_pathAux]
  simp only [hcf, hdc]

theorem ls_pathAux_list (gdev : Nat → Nat) (a b c d f : Nat)
    (cache : List (List (List Nat) × BChain)) (head : List (List Nat))
    (bc : BChain) (de_list : List Dirent)
    (hcf : cacheFind cache head = some bc)
    (hdc : get_direntsChain gdev bc = some (.ok de_list)) :
    ls_pathAux gdev a b c d f cache head []
      = (.ok (ls_dirents de_list), cache, 0) := by
  conv_lhs => rw [ls_pathAux]
  simp only [hcf, hdc]

theorem ls_pathAux_notfound (gdev : Nat → Nat) (a b c d f : Nat)
    (cache : List (List (List Nat) × BChain)) (head : List (List Nat))
    (p : List Nat) (rest : List (List Nat)) (bc : BChain)
    (de_list : List Dirent)
    (hcf : cacheFind cache head = some bc)
    (hdc : get_direntsChain gdev bc = some (.ok de_list))
    (hfind : de_list.find? (fun de =>
      (de.type = .file ∨ de.type = .dir) ∧ de.name = some p) = none) :
    ls_pathAux gdev a b c d f cache head (p :: rest)
      = (.notFound (head ++ [p]), cache, 0) := by
  conv_lhs => rw [ls_pathAux]
  simp only [hcf, hdc, hfind]

theorem ls_pathAux_filehit (gdev : Nat → Nat) (a b c d f : Nat)
    (cache : List (List (List Nat) × BChain)) (head : List (List Nat))
    (p : List Nat) (rest : List (List Nat)) (bc : BChain)
    (de_list : List Dirent) (de : Dirent)
    (hcf : cacheFind cache head = some bc)
    (hdc : get_direntsChain gdev bc = some (.ok de_list))
    (hfind : de_list.find? (fun de =>
      (de.type = .file ∨ de.type = .dir) ∧ de.name = some p) = some de)
    (hfile : de.type = .file) :
    ls_pathAux gdev a b c d f cache head (p :: rest)
      = (.ok (ls_dirents [de]), cache, 0) := by
  conv_lhs => rw [ls_pathAux]
  simp only [hcf, hdc, hfind, hfile]
  rw [if_pos trivial]

theorem ls_pathAux_badwalk (gdev : Nat → Nat) (a b c d f : Nat)
    (cache : List (List (List Nat) × BChain)) (head : List (List Nat))
    (p : List Nat) (rest : List (List Nat)) (bc : BChain)
    (de_list : List Dirent) (de : Dirent) (e : ClErr)
    (hcf : cacheFind cache head = some bc)
    (hdc : get_direntsChain gdev bc = some (.ok de_list))
    (hfind : de_list.find? (fun de =>
      (de.type = .file ∨ de.type = .dir) ∧ de.name = some p) = some de)
    (hnf : ¬de.type = .file)
    (hcl : get_clist gdev a b f de.type de.size de.cluster = .error e) :
    ls_pathAux gdev a b c d f cache head (p :: rest) = (.err, cache, 1) := by
  conv_lhs => rw [ls_pathAux]
  simp only [hcf, hdc, hfind, hcl, if_neg hnf]

theorem ls_pathAux_dirhit (gdev : Nat → Nat) (a b c d f : Nat)
    (cache : List (List (List Nat) × BChain)) (head : List (List Nat))
    (p : List Nat) (rest : List (List Nat)) (bc : BChain)
    (de_list : List Dirent) (de : Dirent) (clist : List Nat)
    (hcf : cacheFind cache head = some bc)
    (hdc : get_direntsChain gdev bc = some (.ok de_list))
    (hfind : de_list.find? (fun de =>
      (de.type = .file ∨ de.type = .dir) ∧ de.name = some p) = some de)
    (hnf : ¬de.type = .file)
    (hcl : get_clist gdev a b f de.type de.size de.cluster = .ok clist) :
    ls_pathAux gdev a b c d f cache head (p :: rest)
      = ((ls_pathAux gdev a b c d f
            (if (cacheFind cache (head ++ [p])).isNone then
              cache ++ [(head ++ [p], (⟨gdev, clist, c, d⟩ : BChain))]
            else cache)
            (head ++ [p]) rest).1,
         (ls_pathAux gdev a b c d f
            (if (cacheFind cache (head ++ [p])).isNone then
              cache ++ [(head ++ [p], (⟨gdev, clist, c, d⟩ : BChain))]
            else cache)
            (head ++ [p]) rest).2.1,
         (ls_pathAux gdev a b c d f
            (if (cacheFind cache (head ++ [p])).isNone then
              cache ++ [(head ++ [p], (⟨gdev, clist, c, d⟩ : BChain))]
            else cache)
            (head ++ [p]) rest).2.2 + 1) := by
  conv_lhs => rw [ls_pathAux]
  simp only [hcf, hdc, hfind, hcl, if_neg hnf]

/-! ## Cache lemmas -/

/-- Appending entries to the cache never changes an existing lookup. -/
theorem cacheFind_append_of_some (cache ext : List (List (List Nat) × BChain))
    (k : List (List Nat)) (v : BChain) (h : cacheFind cache k = some v) :
    cacheFind (cache ++ ext) k = some v := by
  induction cache with
  | nil => simp [cacheFind] at h
  | cons kv cs ih =>
    obtain ⟨q, bc⟩ := kv
    rw [List.cons_append]
    simp only [cacheFind] at h ⊢
    split at h
    · next hq => rw [if_pos hq]; exact h
    · next hq => rw [if_neg hq]; exact ih h

/-- Inserting an absent key at the end makes it findable. -/
theorem cacheFind_append_self (cache : List (List (List Nat) × BChain))
    (k : List (List Nat)) (v : BChain) (h : cacheFind cache k = none) :
    cacheFind (cache ++ [(k, v)]) k = some v := by
  induction cache with
  | nil => simp [cacheFind]
  | cons kv cs ih =>
    obtain ⟨q, bc⟩ := kv
    rw [List.cons_append]
    simp only [cacheFind] at h ⊢
    split at h
    · exact absurd h (by simp)
    · next hq => rw [if_neg hq]; exact ih h

/-- Resolution only appends to the cache, and re-resolving the same path
with the cache a first resolution produced returns the very same result —
same listing, same cache, and the SAME number of `get_clist` walk
invocations (not zero: the walk is repeated). -/
theorem ls_pathAux_idem (gdev : Nat → Nat) (a b c d f : Nat) :
    ∀ (tail : List (List Nat)) (cache : List (List (List Nat) × BChain))
      (head : List (List Nat)),
      (∃ ext, (ls_pathAux gdev a b c d f cache head tail).2.1 = cache ++ ext)
        ∧ ls_pathAux gdev a b c d f
            ((ls_pathAux gdev a b c d f cache head tail).2.1) head tail
          = ls_pathAux gdev a b c d f cache head tail := by
  intro tail
  induction tail with
  | nil =>
    intro cache head
    rcases hcf : cacheFind cache head with _ | bc
    · have hrun := ls_pathAux_nocache gdev a b c d f cache head [] hcf
      exact ⟨⟨[], by rw [hrun]; simp⟩, by rw [hrun]; exact hrun⟩
    · rcases hdc : get_direntsChain gdev bc with _ | e | de_list
      · have hrun := ls_pathAux_badread gdev a b c d f cache head [] bc hcf hdc
        exact ⟨⟨[], by rw [hrun]; simp⟩, by rw [hrun]; exact hrun⟩
      · have hrun := ls_pathAux_baddir gdev a b c d f cache head [] bc e hcf hdc
        exact ⟨⟨[], by rw [hrun]; simp⟩, by rw [hrun]; exact hrun⟩
      · have hrun := ls_pathAux_list gdev a b c d f cache head bc de_list hcf hdc
        exact ⟨⟨[], by rw [hrun]; simp⟩, by rw [hrun]; exact hrun⟩
  | cons p rest ih =>
    intro cache head
    rcases hcf : cacheFind cache head with _ | bc
    · have hrun := ls_pathAux_nocache gdev a b c d f cache head (p :: rest) hcf
      exact ⟨⟨[], by rw [hrun]; simp⟩, by rw [hrun]; exact hrun⟩
    · rcases hdc : get_direntsChain gdev bc with _ | e | de_list
      · have hrun := ls_pathAux_badread gdev a b c d f cache head (p :: rest)
          bc hcf hdc
        exact ⟨⟨[], by rw [hrun]; simp⟩, by rw [hrun]; exact hrun⟩
      · have hrun := ls_pathAux_baddir gdev a b c d f cache head (p :: rest)
          bc e hcf hdc
        exact ⟨⟨[], by rw [hrun]; simp⟩, by rw [hrun]; exact hrun⟩
      · rcases hfind : de_list.find? (fun de =>
            (de.type = .file ∨ de.type = .dir) ∧ de.name = some p) with _ | de
        · have hrun := ls_pathAux_notfound gdev a b c d f cache head p rest
            bc de_list hcf hdc hfind
          exact ⟨⟨[], by rw [hrun]; simp⟩, by rw [hrun]; exact hrun⟩
        · by_cases hfile : de.type = .file
          · have hrun := ls_pathAux_filehit gdev a b c d f cache head p rest
              bc de_list de hcf hdc hfind hfile
            exact ⟨⟨[], by rw [hrun]; simp⟩, by rw [hrun]; exact hrun⟩
          · rcases hcl : get_clist gdev a b f de.type de.size de.cluster
                with e | clist
            · have hrun := ls_pathAux_badwalk gdev a b c d f cache head p rest
                bc de_list de e hcf hdc hfind hfile hcl
              exact ⟨⟨[], by rw [hrun]; simp⟩, by rw [hrun]; exact hrun⟩
            · -- matched directory with a successful walk
              have hrun := ls_pathAux_dirhit gdev a b c d f cache head p rest
                bc de_list de clist hcf hdc hfind hfile hcl
              obtain ⟨cache1, hc1⟩ : ∃ cache1,
                  (if (cacheFind cache (head ++ [p])).isNone then
                    cache ++ [(head ++ [p], (⟨gdev, clist, c, d⟩ : BChain))]
                  else cache) = cache1 := ⟨_, rfl⟩
              rw [hc1] at hrun
              obtain ⟨r, hr⟩ : ∃ r,
                  ls_pathAux gdev a b c d f cache1 (head ++ [p]) rest = r :=
                ⟨_, rfl⟩
              rw [hr] at hrun
              obtain ⟨ext1, hext1⟩ := (ih cache1 (head ++ [p])).1
              rw [hr] at hext1
              have hidem := (ih cache1 (head ++ [p])).2
              rw [hr] at hidem
              obtain ⟨e0, he0⟩ : ∃ e0, cache1 = cache ++ e0 := by
                rw [← hc1]
                split
                · exact ⟨_, rfl⟩
                · exact ⟨[], by simp⟩
              refine ⟨⟨e0 ++ ext1, ?_⟩, ?_⟩
              · rw [hrun]
                show r.2.1 = cache ++ (e0 ++ ext1)
                rw [hext1, he0, List.append_assoc]
              · rw [hrun]
                show ls_pathAux gdev a b c d f (r.2.1) head (p :: rest)
                  = (r.1, r.2.1, r.2.2 + 1)
                have hcf2 : cacheFind (r.2.1) head = some bc := by
                  rw [hext1, he0, List.append_assoc]
                  exact cacheFind_append_of_some _ _ _ _ hcf
                obtain ⟨w, hw⟩ : ∃ w,
                    cacheFind (r.2.1) (head ++ [p]) = some w := by
                  rcases hfound : cacheFind cache (head ++ [p]) with _ | v
                  · refine ⟨⟨gdev, clist, c, d⟩, ?_⟩
                    rw [hext1]
                    apply cacheFind_append_of_some
                    have hni : (cacheFind cache (head ++ [p])).isNone = true := by
                      rw [hfound]; rfl
                    rw [← hc1, if_pos hni]
                    exact cacheFind_append_self _ _ _ hfound
                  · refine ⟨v, ?_⟩
                    rw [hext1]
                    apply cacheFind_append_of_some
                    have hni : ¬(cacheFind cache (head ++ [p])).isNone = true := by
                      rw [hfound]; simp
                    rw [← hc1, if_neg hni]
                    exact hfound
                have hstep2 := ls_pathAux_dirhit gdev a b c d f (r.2.1) head p
                  rest bc de_list de clist hcf2 hdc hfind hfile hcl
                rw [hstep2]
                have hni2 : ¬(cacheFind (r.2.1) (head ++ [p])).isNone = true := by
                  rw [hw]; simp
                rw [if_neg hni2, hidem]

/-! ## C1: what re-resolution does and does not repeat -/

/-- A small FAT16 device: FAT at offset 0 (signature + cluster 2 marked
end-of-chain), a 2-slot root directory at offset 64 holding one
subdirectory named "a" with first cluster 2, and cluster 2's (empty)
directory data at offset 192. -/
def dev1 : Nat → Nat := fun o =>
  if o = 0 then 0xF8
  else if o < 4 then 0xFF
  else if o = 4 then 0xFF
  else if o = 5 then 0xFF
  else if o = 64 then 97
  else if 65 ≤ o ∧ o ≤ 74 then 0x20
  else if o = 75 then 0x10
  else if o = 90 then 2 else 0

/-- The pre-seeded cache: the root directory's fixed-size `BChain`. -/
def cache1 : List (List (List Nat) × BChain) := [([], ⟨dev1, [0], 64, 64⟩)]

/-- C1 counterexample: resolving the directory path "a" twice.  The first
resolution performs one `get_clist` walk and caches "/a"; by the claim the
second resolution of the same (now cached) path should perform zero walks,
but it performs one again — `_ls_path` calls `get_clist` on every matched
directory component before consulting the cache. -/
theorem c1_counterexample :
    (ls_pathAux dev1 0 32 32 128 10 cache1 [] [[97]]).2.2 = 1
      ∧ (ls_pathAux dev1 0 32 32 128 10
          (ls_pathAux dev1 0 32 32 128 10 cache1 [] [[97]]).2.1 [] [[97]]).2.2
        = 1 := ⟨by decide, by decide⟩

/-- C1 amended: re-resolving a previously resolved path returns the same
listing and leaves the cache unchanged (the cache, which only ever grows
by appended entries, spares re-building and re-inserting directory
BlockChains) — but the FAT-chain walk count of the second resolution
equals that of the first resolution rather than dropping to zero: the
`get_clist` walk is repeated for every matched directory component. -/
theorem c1_amended (gdev : Nat → Nat) (fat1offs spfbps spcbps c0offs
    clistFuel : Nat) (tail : List (List Nat))
    (cache : List (List (List Nat) × BChain)) (head : List (List Nat)) :
    ls_pathAux gdev fat1offs spfbps spcbps c0offs clistFuel
        ((ls_pathAux gdev fat1offs spfbps spcbps c0offs clistFuel
          cache head tail).2.1) head tail
      = ls_pathAux gdev fat1offs spfbps spcbps c0offs clistFuel
          cache head tail :=
  (ls_pathAux_idem gdev fat1offs spfbps spcbps c0offs clistFuel
    tail cache head).2

/-! ## C3: a File match with remaining path components -/

/-- A device whose 2-slot root directory (at offset 64) holds one FILE
named "a" (attribute byte 0x20, no directory bit). -/
def dev3 : Nat → Nat := fun o =>
  if o = 64 then 97
  else if 65 ≤ o ∧ o ≤ 74 then 0x20
  else if o = 75 then 0x20 else 0

/-- The root chain over `dev3` and its pre-seeded cache. -/
def rootBC3 : BChain := ⟨dev3, [0], 64, 64⟩

def cache3 : List (List (List Nat) × BChain) := [([], rootBC3)]

/-- The decoded entry for the file "a" in `dev3`'s root directory. -/
def deA3 : Dirent :=
  ⟨.file, some [97], 0, 0, 0x20, ['-', '-', '-', '-', '-', 'a'], 64, 64⟩

/-- C3 counterexample: resolving "a/b" where "a" is a FILE.  The claim
says resolution must fail with an error because components remain after
the file match; instead the source returns the file's single-entry
listing, silently ignoring the remaining component "b". -/
theorem c3_counterexample :
    (ls_pathAux dev3 0 32 32 128 10 cache3 [] [[97], [98]]).1
      = .ok [deA3] := by decide

/-- C3 amended: when a path component matches a File entry, resolution
returns the single-element listing IMMEDIATELY, whether or not further
components remain — the remaining components are ignored, no error is
raised, no walk is performed and the cache is unchanged. -/
theorem c3_amended (gdev : Nat → Nat) (fat1offs spfbps spcbps c0offs
    clistFuel : Nat) (cache : List (List (List Nat) × BChain))
    (head : List (List Nat)) (p : List Nat) (rest : List (List Nat))
    (bc : BChain) (de_list : List Dirent) (de : Dirent)
    (hbc : cacheFind cache head = some bc)
    (hde : get_direntsChain gdev bc = some (.ok de_list))
    (hfind : de_list.find? (fun d =>
      (d.type = .file ∨ d.type = .dir) ∧ d.name = some p) = some de)
    (hfile : de.type = .file) :
    ls_pathAux gdev fat1offs spfbps spcbps c0offs clistFuel cache head
        (p :: rest)
      = (.ok (ls_dirents [de]), cache, 0) :=
  ls_pathAux_filehit gdev fat1offs spfbps spcbps c0offs clistFuel cache
    head p rest bc de_list de hbc hde hfind hfile

theorem c3_amended_witness :
    cacheFind cache3 [] = some rootBC3
      ∧ get_direntsChain dev3 rootBC3 = some (.ok [deA3])
      ∧ [deA3].find? (fun d =>
          (d.type = .file ∨ d.type = .dir) ∧ d.name = some [97]) = some deA3
      ∧ deA3.type = .file
      ∧ ls_pathAux dev3 0 32 32 128 10 cache3 [] ([97] :: [[98]])
          = (.ok (ls_dirents [deA3]), cache3, 0) :=
  ⟨rfl, by decide, by decide, rfl,
    c3_amended dev3 0 32 32 128 10 cache3 [] [97] [[98]] rootBC3 [deA3] deA3
      rfl (by decide) (by decide) rfl⟩

/-! ## C7: long-filename reconstruction -/

/-- UTF-16-LE byte encoding of a list of 16-bit code units. -/
def encB (l : List Nat) : List Nat :=
  (l.map (fun u => [u % 256, u / 256])).flatten

/-- The on-disk unit content of a k-slot long name whose UTF-16 units are
`s`: the units themselves, then — when room remains — one zero terminator
and 0xFFFF padding up to the 13·k units the slots carry. -/
def lfnPad (s : List Nat) (k : Nat) : List Nat :=
  if s.length = 13 * k then s
  else s ++ 0 :: List.replicate (13 * k - s.length - 1) 0xFFFF

/-- The 26-byte fragment carried by the long-name slot with sequence
index `i` (units 13·(i−1) .. 13·i of the padded name). -/
def lfnFrag (s : List Nat) (k i : Nat) : List Nat :=
  encB (((lfnPad s k).drop (13 * (i - 1))).take 13)

/-- A long-name directory slot: sequence-flags byte (index, plus 0x40 on
the last slot), the fragment bytes in the lfn1/lfn2/lfn3 areas, attribute
byte 0x0F, NT byte 0, checksum byte `ck`, first-cluster 0. -/
def mkLfnSlot (idx : Nat) (last : Bool) (ck : Nat) (frag : List Nat) :
    List Nat :=
  (if last then idx + 64 else idx) :: frag.take 10
    ++ [0x0F, 0, ck] ++ (frag.drop 10).take 12 ++ [0, 0] ++ (frag.drop 22).take 4

/-- The long-name slots for indices `i, i-1, ..., 1` in on-disk
(descending) order; the slot with index `k` carries the last-flag. -/
def lfnSlotsDown (ck k : Nat) (frag : Nat → List Nat) :
    Nat → List (List Nat)
  | 0 => []
  | i + 1 => mkLfnSlot (i + 1) (decide (i + 1 = k)) ck (frag (i + 1))
      :: lfnSlotsDown ck k frag i

/-- The terminal slot the long name belongs to: a live file with short
name "X", attribute byte 0x20 (archive), zero size and cluster. -/
def termSlot : List Nat :=
  [88, 32, 32, 32, 32, 32, 32, 32, 32, 32, 32, 0x20, 0, 0, 0, 0,
   0, 0, 0, 0, 0, 0, 0, 0, 0, 0, 0, 0, 0, 0, 0, 0]

/-- The LFN-accumulator dictionary contents after scanning the slots with
indices `hi, hi-1, ..., hi-cnt+1` in that (insertion) order. -/
def partsDown (frag : Nat → List Nat) (hi : Nat) :
    Nat → List (Nat × List Nat)
  | 0 => []
  | cnt + 1 => (hi, frag hi) :: partsDown frag (hi - 1) cnt

/-- The key list of `partsDown`: `hi, hi-1, ...` (length `cnt`). -/
def descK (hi : Nat) : Nat → List Nat
  | 0 => []
  | cnt + 1 => hi :: descK (hi - 1) cnt

theorem encB_length (l : List Nat) : (encB l).length = 2 * l.length := by
  induction l with
  | nil => rfl
  | cons x rest ih =>
    simp only [encB, List.map_cons, List.flatten_cons] at ih ⊢
    simp [ih]
    omega

theorem encB_append (a b : List Nat) : encB (a ++ b) = encB a ++ encB b := by
  simp [encB]

/-- Flattening per-chunk encodings is encoding the flattened chunks. -/
theorem flatten_map_encB (xs : List Nat) (g : Nat → List Nat) :
    (xs.map (fun i => encB (g i))).flatten = encB ((xs.map g).flatten) := by
  induction xs with
  | nil => rfl
  | cons x rest ih =>
    simp only [List.map_cons, List.flatten_cons, encB_append, ih]

/-- Decoding the UTF-16-LE encoding of in-range units truncates the unit
list at its first zero unit. -/
theorem decodeUCS16_encB (u : List Nat) (hu : ∀ x ∈ u, x < 65536) :
    decodeUCS16 (encB u) = u.takeWhile (fun x => decide (x ≠ 0)) := by
  induction u with
  | nil => rfl
  | cons x rest ih =>
    have hx : x < 65536 := hu x (by simp)
    have hencB : encB (x :: rest) = x % 256 :: x / 256 :: encB rest := by
      simp [encB]
    rw [hencB]
    simp only [decodeUCS16]
    by_cases hz : x = 0
    · subst hz
      rw [if_pos (by omega)]
      simp [List.takeWhile]
    · rw [if_neg (by omega)]
      have hle : le16of (x % 256) (x / 256) = x := Nat.mod_add_div x 256
      rw [hle, ih (fun y hy => hu y (by simp [hy]))]
      simp [List.takeWhile, hz]

/-- `takeWhile (· ≠ 0)` over a list followed by a zero terminator equals
`takeWhile` over the list alone. -/
theorem takeWhile_append_zero (a r : List Nat) :
    (a ++ 0 :: r).takeWhile (fun x => decide (x ≠ 0))
      = a.takeWhile (fun x => decide (x ≠ 0)) := by
  induction a with
  | nil => simp [List.takeWhile]
  | cons x rest ih =>
    by_cases hz : x = 0
    · subst hz
      simp [List.takeWhile]
    · simp only [List.cons_append, List.takeWhile]
      rw [show (decide (x ≠ 0)) = true by simp [hz]]
      exact congrArg (List.cons x) ih

/-- Truncation of the padded unit list at the first zero equals
truncation of the original. -/
theorem lfnPad_takeWhile (s : List Nat) (k : Nat) :
    (lfnPad s k).takeWhile (fun x => decide (x ≠ 0))
      = s.takeWhile (fun x => decide (x ≠ 0)) := by
  unfold lfnPad
  split
  · rfl
  · exact takeWhile_append_zero s _

theorem lfnPad_length (s : List Nat) (k : Nat) (h : s.length ≤ 13 * k) :
    (lfnPad s k).length = 13 * k := by
  unfold lfnPad
  split
  · next he => exact he
  · next he => simp; omega

theorem lfnPad_bounded (s : List Nat) (k : Nat)
    (hu : ∀ x ∈ s, x < 65536) :
    ∀ x ∈ lfnPad s k, x < 65536 := by
  unfold lfnPad
  split
  · exact hu
  · intro x hx
    rcases List.mem_append.1 hx with hx | hx
    · exact hu x hx
    · rcases List.mem_cons.1 hx with rfl | hx
      · omega
      · have := List.eq_of_mem_replicate hx
        omega

/-- The sequence-flag bit arithmetic of the decoder, for indices ≤ 20. -/
theorem lfnBits : ∀ j < 21, (j + 64) &&& 0xBF = j ∧ (j + 64) &&& 0x40 ≠ 0
    ∧ j &&& 0xBF = j ∧ j &&& 0x40 = 0 := by decide

theorem sortNat_cons (x : Nat) (xs : List Nat) :
    sortNat (x :: xs) = insertSorted x (sortNat xs) := rfl

theorem insertSorted_last (x : Nat) (l : List Nat) (h : ∀ y ∈ l, y < x) :
    insertSorted x l = l ++ [x] := by
  induction l with
  | nil => rfl
  | cons y ys ih =>
    have hy : y < x := h y (by simp)
    simp only [insertSorted]
    rw [if_neg (by omega)]
    rw [ih (fun z hz => h z (by simp [hz]))]
    rfl

/-- Sorting the descending key list `k, k-1, ..., 1` yields `1, ..., k`. -/
theorem sortNat_descK : ∀ k, sortNat (descK k k) = List.range' 1 k := by
  intro k
  induction k with
  | zero => rfl
  | succ c ih =>
    have hd : descK (c + 1) (c + 1) = (c + 1) :: descK c c := by
      simp [descK]
    rw [hd, sortNat_cons, ih]
    rw [insertSorted_last _ _ (fun y hy => by
      have := List.mem_range'_1.1 hy
      omega)]
    rw [List.range'_concat]
    congr 2
    omega

theorem partsDown_length (frag : Nat → List Nat) :
    ∀ cnt hi, (partsDown frag hi cnt).length = cnt := by
  intro cnt
  induction cnt with
  | zero => intro hi; rfl
  | succ c ih => intro hi; simp [partsDown, ih]

theorem partsDown_keys (frag : Nat → List Nat) :
    ∀ cnt hi, (partsDown frag hi cnt).map Prod.fst = descK hi cnt := by
  intro cnt
  induction cnt with
  | zero => intro hi; rfl
  | succ c ih => intro hi; simp [partsDown, descK, ih]

theorem descK_mem : ∀ cnt hi j, cnt ≤ hi → j ∈ descK hi cnt →
    hi - cnt < j ∧ j ≤ hi := by
  intro cnt
  induction cnt with
  | zero => intro hi j _ hj; simp [descK] at hj
  | succ c ih =>
    intro hi j hle hj
    rw [show descK hi (c + 1) = hi :: descK (hi - 1) c from rfl] at hj
    rcases List.mem_cons.1 hj with rfl | hj
    · omega
    · have := ih (hi - 1) j (by omega) hj
      omega

theorem partsDown_lookup (frag : Nat → List Nat) :
    ∀ cnt hi j, cnt ≤ hi → hi - cnt < j → j ≤ hi →
      (partsDown frag hi cnt).lookup j = some (frag j) := by
  intro cnt
  induction cnt with
  | zero => intro hi j h1 h2 h3; omega
  | succ c ih =>
    intro hi j h1 h2 h3
    show List.lookup j ((hi, frag hi) :: partsDown frag (hi - 1) c) = _
    by_cases hj : j = hi
    · subst hj
      simp [List.lookup]
    · simp only [List.lookup]
      rw [show (j == hi) = false from beq_eq_false_iff_ne.2 hj]
      exact ih (hi - 1) j (by omega) (by omega) (by omega)

theorem partsDown_not_contains (frag : Nat → List Nat) (cnt hi j : Nat)
    (h1 : cnt ≤ hi) (h2 : j ≤ hi - cnt) :
    ((partsDown frag hi cnt).map Prod.fst).contains j = false := by
  rw [partsDown_keys]
  have : ¬ j ∈ descK hi cnt := by
    intro hm
    have := descK_mem cnt hi j h1 hm
    omega
  simpa using this

theorem partsDown_snoc (frag : Nat → List Nat) :
    ∀ cnt hi, cnt ≤ hi →
      partsDown frag hi cnt ++ [(hi - cnt, frag (hi - cnt))]
        = partsDown frag hi (cnt + 1) := by
  intro cnt
  induction cnt with
  | zero => intro hi _; simp [partsDown]
  | succ c ih =>
    intro hi hle
    show ((hi, frag hi) :: partsDown frag (hi - 1) c) ++ _
      = (hi, frag hi) :: partsDown frag (hi - 1) (c + 1)
    rw [List.cons_append]
    congr 1
    rw [show hi - (c + 1) = (hi - 1) - c from by omega]
    exact ih (hi - 1) (by omega)

theorem dictInsert_absent (d : List (Nat × List Nat)) (k : Nat) (v : List Nat)
    (h : (d.map Prod.fst).contains k = false) :
    dictInsert d k v = d ++ [(k, v)] := by
  unfold dictInsert
  rw [h]
  simp

/-- Rejoining the 13-unit chunks of a 13·k-unit list gives it back. -/
theorem chunksFlatten : ∀ (k : Nat) (l : List Nat), l.length = 13 * k →
    ((List.range' 1 k).map (fun i => (l.drop (13 * (i - 1))).take 13)).flatten
      = l := by
  intro k
  induction k with
  | zero =>
    intro l hl
    have : l = [] := List.eq_nil_of_length_eq_zero (by omega)
    subst this
    rfl
  | succ c ih =>
    intro l hl
    rw [List.range'_concat]
    rw [List.map_append, List.flatten_append]
    have hfirst :
        ((List.range' 1 c).map (fun i => (l.drop (13 * (i - 1))).take 13)).flatten
          = l.take (13 * c) := by
      have hlen : (l.take (13 * c)).length = 13 * c := by
        simp [List.length_take]
        omega
      have := ih (l.take (13 * c)) hlen
      rw [← this]
      congr 1
      apply List.map_congr_left
      intro i hi
      have hmem := List.mem_range'_1.1 hi
      rw [List.drop_take]
      rw [List.take_take]
      congr 1
      omega
    rw [hfirst]
    have hlast : ((l.drop (13 * (1 + 1 * c - 1))).take 13) = l.drop (13 * c) := by
      rw [show 1 + 1 * c - 1 = c from by omega]
      apply List.take_of_length_le
      simp [List.length_drop]
      omega
    simp only [List.map_cons, List.map_nil, List.flatten_cons, List.flatten_nil,
      List.append_nil]
    rw [hlast]
    exact List.take_append_drop (13 * c) l


theorem getD_cons_pos (a : Nat) (t : List Nat) (n : Nat) (h : 0 < n) :
    (a :: t).getD n 0 = t.getD (n - 1) 0 := by
  cases n with
  | zero => omega
  | succ m => simp [List.getD_cons_succ]

theorem drop_cons_pos (a : Nat) (t : List Nat) (n : Nat) (h : 0 < n) :
    (a :: t).drop n = t.drop (n - 1) := by
  cases n with
  | zero => omega
  | succ m => simp

theorem take_append_of_length (l l' : List Nat) (n : Nat) (h : l.length = n) :
    (l ++ l').take n = l := by
  subst h
  exact List.take_left l l'

theorem drop_append_ge (l l' : List Nat) (n : Nat) (h : l.length ≤ n) :
    (l ++ l').drop n = l'.drop (n - l.length) := by
  obtain ⟨m, rfl⟩ : ∃ m, n = l.length + m := ⟨n - l.length, by omega⟩
  simp [List.drop_append]

/-- The decoder-visible fields of a long-name slot built by `mkLfnSlot`:
not the all-zero terminator, attribute byte 0x0F, first-cluster bytes 0,
sequence-flags byte as constructed, and the three name-byte areas
(lfn1/lfn2/lfn3) reassembling to exactly the 26-byte fragment. -/
theorem mkLfnSlot_spec (idx : Nat) (last : Bool) (ck : Nat) (frag : List Nat)
    (hfrag : frag.length = 26) :
    mkLfnSlot idx last ck frag ≠ List.replicate 32 0
    ∧ (mkLfnSlot idx last ck frag).getD 0x0B 0 = 0x0F
    ∧ (mkLfnSlot idx last ck frag).getD 0x1A 0 = 0
    ∧ (mkLfnSlot idx last ck frag).getD 0x1B 0 = 0
    ∧ (mkLfnSlot idx last ck frag).getD 0 0 = (if last then idx + 64 else idx)
    ∧ ((mkLfnSlot idx last ck frag).drop 1).take 10
        ++ ((mkLfnSlot idx last ck frag).drop 0x0E).take 12
        ++ ((mkLfnSlot idx last ck frag).drop 0x1C).take 4 = frag := by
  have h1 : (frag.take 10).length = 10 := by
    simp [List.length_take]
    omega
  have h2 : ((frag.drop 10).take 12).length = 12 := by
    simp [List.length_take, List.length_drop]
    omega
  have h3 : ((frag.drop 22).take 4).length = 4 := by
    simp [List.length_take, List.length_drop]
    omega
  have hsplit : mkLfnSlot idx last ck frag
      = (if last then idx + 64 else idx) :: (frag.take 10
          ++ ([0x0F, 0, ck] ++ ((frag.drop 10).take 12
          ++ ([0, 0] ++ (frag.drop 22).take 4)))) := by
    simp [mkLfnSlot, List.cons_append, List.append_assoc]
  have hflags : (mkLfnSlot idx last ck frag).getD 0x0B 0 = 0x0F := by
    rw [hsplit, getD_cons_pos _ _ 0x0B (by omega)]
    rw [show (0x0B - 1 : Nat) = 10 from rfl]
    rw [getD_append_ge _ _ 10 (by omega), h1]
    rfl
  refine ⟨?_, hflags, ?_, ?_, ?_, ?_⟩
  · intro h
    have h0 := hflags
    rw [h] at h0
    exact absurd h0 (by decide)
  · rw [hsplit, getD_cons_pos _ _ 0x1A (by omega)]
    rw [show (0x1A - 1 : Nat) = 25 from rfl]
    rw [getD_append_ge _ _ 25 (by omega), h1]
    rw [show (25 - 10 : Nat) = 15 from rfl]
    rw [getD_append_ge _ _ 15 (by simp)]
    rw [show (15 - ([0x0F, 0, ck] : List Nat).length : Nat) = 12 from by simp]
    rw [getD_append_ge _ _ 12 (by omega), h2]
    rfl
  · rw [hsplit, getD_cons_pos _ _ 0x1B (by omega)]
    rw [show (0x1B - 1 : Nat) = 26 from rfl]
    rw [getD_append_ge _ _ 26 (by omega), h1]
    rw [show (26 - 10 : Nat) = 16 from rfl]
    rw [getD_append_ge _ _ 16 (by simp)]
    rw [show (16 - ([0x0F, 0, ck] : List Nat).length : Nat) = 13 from by simp]
    rw [getD_append_ge _ _ 13 (by omega), h2]
    rfl
  · rw [hsplit]
    rfl
  · rw [hsplit]
    rw [drop_cons_pos _ _ 1 (by omega), List.drop_zero]
    rw [take_append_of_length _ _ _ h1]
    rw [drop_cons_pos _ _ 0x0E (by omega)]
    rw [show (0x0E - 1 : Nat) = 13 from rfl]
    rw [drop_append_ge _ _ 13 (by omega), h1]
    rw [show (13 - 10 : Nat) = 3 from rfl]
    rw [drop_append_ge _ _ 3 (by simp)]
    rw [show (3 - ([0x0F, 0, ck] : List Nat).length : Nat) = 0 from by simp]
    rw [List.drop_zero]
    rw [take_append_of_length _ _ _ h2]
    rw [drop_cons_pos _ _ 0x1C (by omega)]
    rw [show (0x1C - 1 : Nat) = 27 from rfl]
    rw [drop_append_ge _ _ 27 (by omega), h1]
    rw [show (27 - 10 : Nat) = 17 from rfl]
    rw [drop_append_ge _ _ 17 (by simp)]
    rw [show (17 - ([0x0F, 0, ck] : List Nat).length : Nat) = 14 from by simp]
    rw [drop_append_ge _ _ 14 (by omega), h2]
    rw [show (14 - 12 : Nat) = 2 from rfl]
    rw [drop_append_ge _ _ 2 (by simp)]
    rw [show (2 - ([0, 0] : List Nat).length : Nat) = 0 from by simp]
    rw [List.drop_zero]
    rw [List.take_of_length_le (le_of_eq h3)]
    -- frag.take 10 ++ ((frag.drop 10).take 12 ++ (frag.drop 22).take 4) = frag
    have hinner : (frag.drop 10).take 12 ++ (frag.drop 22).take 4
        = frag.drop 10 := by
      have hd : (frag.drop 10).drop 12 = frag.drop 22 := by
        rw [List.drop_drop]
      have h4 : ((frag.drop 10).drop 12).length = 4 := by
        simp [List.length_drop]
        omega
      rw [← hd]
      rw [List.take_of_length_le (le_of_eq h4)]
      exact List.take_append_drop 12 (frag.drop 10)
    rw [List.append_assoc, hinner]
    exact List.take_append_drop 10 frag

/-- Scanning the last-flagged long-name slot (index `idx ≤ 20`): the
decoder records `idx` as the maximum, stores the fragment under `idx`,
and keeps/sets the first-fragment offset. -/
theorem lfnSlotStep_last (offsFn : Nat → Nat) (idx ck : Nat) (frag : List Nat)
    (hfrag : frag.length = 26) (h1 : 1 ≤ idx) (h20 : idx ≤ 20)
    (rest : List (List Nat)) (i : Nat) (st : LfnSt) (hck : st.cksum = none) :
    get_direntsAux offsFn (mkLfnSlot idx true ck frag :: rest) i st
      = get_direntsAux offsFn rest (i + 1)
          ⟨dictInsert st.parts idx frag, st.cksum, some idx,
            if st.loffs = none then some (offsFn (i * 32)) else st.loffs⟩ := by
  obtain ⟨hz, hfl, hc1, hc2, hb0, hfr⟩ := mkLfnSlot_spec idx true ck frag hfrag
  obtain ⟨hbit1, hbit2, _, _⟩ := lfnBits idx (by omega)
  have hb0i : (mkLfnSlot idx true ck frag).getD 0 0 = idx + 64 := by
    rw [hb0]
    simp
  simp only [get_direntsAux]
  rw [if_neg hz]
  simp only [hfl, hc1, hc2, hb0i, hck]
  rw [if_neg (show ¬(le16of 0 0 ≠ 0) from by simp [le16of])]
  rw [if_neg (show ¬(idx + 64 = 0xE5) from by omega)]
  rw [hbit1]
  rw [if_pos hbit2]
  rw [if_pos (show idx > 0 ∧ idx ≤ 20
    ∧ (match some idx with
        | none => true
        | some m => decide (idx ≤ m)) = true ∧ True from
    ⟨h1, h20, by simp, trivial⟩)]
  rw [hfr]
  rw [if_pos trivial]

/-- Scanning a long-name slot without the last-flag (index `idx ≤ 20`,
recorded maximum `m ≥ idx`): the decoder stores the fragment under `idx`
and keeps the recorded maximum and offset. -/
theorem lfnSlotStep_mid (offsFn : Nat → Nat) (idx ck m : Nat) (frag : List Nat)
    (hfrag : frag.length = 26) (h1 : 1 ≤ idx) (h20 : idx ≤ 20)
    (rest : List (List Nat)) (i : Nat) (st : LfnSt) (hck : st.cksum = none)
    (hmax : st.maxnum = some m) (hm : idx ≤ m) :
    get_direntsAux offsFn (mkLfnSlot idx false ck frag :: rest) i st
      = get_direntsAux offsFn rest (i + 1)
          ⟨dictInsert st.parts idx frag, st.cksum, st.maxnum,
            if st.loffs = none then some (offsFn (i * 32)) else st.loffs⟩ := by
  obtain ⟨hz, hfl, hc1, hc2, hb0, hfr⟩ := mkLfnSlot_spec idx false ck frag hfrag
  obtain ⟨_, _, hbit3, hbit4⟩ := lfnBits idx (by omega)
  have hb0i : (mkLfnSlot idx false ck frag).getD 0 0 = idx := by
    rw [hb0]
    simp
  simp only [get_direntsAux]
  rw [if_neg hz]
  simp only [hfl, hc1, hc2, hb0i, hck, hmax]
  rw [if_neg (show ¬(le16of 0 0 ≠ 0) from by simp [le16of])]
  rw [if_neg (show ¬(idx = 0xE5) from by omega)]
  rw [hbit3]
  rw [if_neg (show ¬(idx &&& 0x40 ≠ 0) from by simp [hbit4])]
  rw [if_pos (show idx > 0 ∧ idx ≤ 20
    ∧ (match some m with
        | none => true
        | some m2 => decide (idx ≤ m2)) = true ∧ True from
    ⟨h1, h20, by simp [hm], trivial⟩)]
  rw [hfr]
  rw [if_pos trivial]

/-- Scanning the non-last long-name slots `i, i-1, ..., 1` accumulates
their fragments into the parts dictionary, leaving maximum and offset
untouched. -/
theorem lfnRunDown (offsFn : Nat → Nat) (ck k : Nat) (frag : Nat → List Nat)
    (hfl : ∀ j, 1 ≤ j → j ≤ k → (frag j).length = 26) (hk20 : k ≤ 20)
    (o : Nat) (rest2 : List (List Nat)) :
    ∀ i, i < k → ∀ jdx,
      get_direntsAux offsFn (lfnSlotsDown ck k frag i ++ rest2) jdx
          ⟨partsDown frag k (k - i), none, some k, some o⟩
        = get_direntsAux offsFn rest2 (jdx + i)
            ⟨partsDown frag k k, none, some k, some o⟩ := by
  intro i
  induction i with
  | zero =>
    intro _ jdx
    simp [lfnSlotsDown]
  | succ c ih =>
    intro hik jdx
    rw [show lfnSlotsDown ck k frag (c + 1)
      = mkLfnSlot (c + 1) (decide (c + 1 = k)) ck (frag (c + 1))
        :: lfnSlotsDown ck k frag c from rfl]
    rw [show (decide (c + 1 = k)) = false from decide_eq_false (by omega)]
    rw [List.cons_append]
    rw [lfnSlotStep_mid offsFn (c + 1) ck k (frag (c + 1))
      (hfl (c + 1) (by omega) (by omega)) (by omega) (by omega)
      (lfnSlotsDown ck k frag c ++ rest2) jdx
      ⟨partsDown frag k (k - (c + 1)), none, some k, some o⟩
      rfl rfl (by omega)]
    dsimp only
    have hsnoc := partsDown_snoc frag (k - (c + 1)) k (by omega)
    rw [show k - (k - (c + 1)) = c + 1 from by omega] at hsnoc
    rw [show k - (c + 1) + 1 = k - c from by omega] at hsnoc
    have hdict : dictInsert (partsDown frag k (k - (c + 1))) (c + 1)
        (frag (c + 1)) = partsDown frag k (k - c) := by
      rw [dictInsert_absent _ _ _
        (partsDown_not_contains frag (k - (c + 1)) k (c + 1)
          (by omega) (by omega))]
      exact hsnoc
    rw [hdict]
    rw [if_neg (show ¬(some o = (none : Option Nat)) from by simp)]
    rw [ih (by omega) (jdx + 1)]
    rw [show jdx + 1 + c = jdx + (c + 1) from by omega]

/-- Scanning the terminal slot with all `k` fragments accumulated: the
fragment-count assert passes, the fragments are joined in ascending index
order, decoded, and attached as the entry's name, with the recorded
first-fragment offset as its reportable offset. -/
theorem lfnTermStep (offsFn : Nat → Nat) (k : Nat) (hk1 : 1 ≤ k)
    (frag : Nat → List Nat) (o jdx : Nat) :
    get_direntsAux offsFn [termSlot] jdx
        ⟨partsDown frag k k, none, some k, some o⟩
      = .ok [⟨.file,
          some (decodeUCS16 (((List.range' 1 k).map frag).flatten)),
          0, 0, 0x20, attrsOf 0x20, offsFn (jdx * 32), o⟩] := by
  have hne : partsDown frag k k ≠ [] := by
    obtain ⟨c, hc⟩ : ∃ c, k = c + 1 := ⟨k - 1, by omega⟩
    rw [hc]
    simp [partsDown]
  simp only [get_direntsAux]
  rw [if_neg (show ¬(termSlot = List.replicate 32 0) from by decide)]
  rw [show termSlot.getD 0x0B 0 = 0x20 from rfl,
    show termSlot.getD 0 0 = 88 from rfl,
    show termSlot.getD 0x1A 0 = 0 from rfl,
    show termSlot.getD 0x1B 0 = 0 from rfl,
    show termSlot.getD 0x1C 0 = 0 from rfl,
    show termSlot.getD 0x1D 0 = 0 from rfl,
    show termSlot.getD 0x1E 0 = 0 from rfl,
    show termSlot.getD 0x1F 0 = 0 from rfl]
  rw [if_neg (show ¬((0x20 : Nat) = 0x0F) from by decide)]
  rw [if_neg (show ¬((0x20 : Nat) = 0x08) from by decide)]
  rw [if_neg (show ¬((88 : Nat) = 0xE5) from by decide)]
  rw [if_pos hne]
  rw [partsDown_length frag k k]
  rw [if_pos rfl]
  rw [partsDown_keys frag k k, sortNat_descK k]
  have hmapeq : (List.range' 1 k).map
      (fun key => ((partsDown frag k k).lookup key).getD [])
      = (List.range' 1 k).map frag := by
    apply List.map_congr_left
    intro j hj
    have hjm := List.mem_range'_1.1 hj
    rw [partsDown_lookup frag k k j le_rfl (by omega) (by omega)]
    rfl
  rw [hmapeq]
  dsimp only
  rw [if_neg (show ¬((32 : Nat) &&& 16 ≠ 0) from by decide)]
  norm_num [le16of]

/-- C7: a long filename of `len` UTF-16 units split across
`k = ceil(len/13)` long-name slots with sequence indices 1..k (on-disk
descending order, the k-th flagged as maximum, one shared checksum byte)
is reconstructed by the decoder as exactly the original UTF-16 unit
sequence truncated at its first zero unit, attached to the terminal
entry, whose reportable offset is the first-scanned fragment's offset. -/
theorem c7_lfn_reconstruction (offsFn : Nat → Nat) (s : List Nat) (k ck : Nat)
    (hk : k = (s.length + 12) / 13) (h0 : 0 < s.length) (h260 : s.length ≤ 260)
    (hu : ∀ x ∈ s, x < 65536) :
    get_dirents offsFn (lfnSlotsDown ck k (lfnFrag s k) k ++ [termSlot])
      = .ok [⟨.file, some (s.takeWhile (fun x => decide (x ≠ 0))), 0, 0, 0x20,
          attrsOf 0x20, offsFn (k * 32), offsFn 0⟩] := by
  have hk1 : 1 ≤ k := by omega
  have hk20 : k ≤ 20 := by omega
  have hsle : s.length ≤ 13 * k := by omega
  have hpadlen : (lfnPad s k).length = 13 * k := lfnPad_length s k hsle
  have hfl : ∀ j, 1 ≤ j → j ≤ k → (lfnFrag s k j).length = 26 := by
    intro j hj1 hjk
    unfold lfnFrag
    rw [encB_length]
    simp only [List.length_take, List.length_drop, hpadlen]
    omega
  have hname : decodeUCS16 (((List.range' 1 k).map (lfnFrag s k)).flatten)
      = s.takeWhile (fun x => decide (x ≠ 0)) := by
    have h1 : ((List.range' 1 k).map (lfnFrag s k)).flatten
        = encB (lfnPad s k) := by
      unfold lfnFrag
      rw [flatten_map_encB (List.range' 1 k)
        (fun i => ((lfnPad s k).drop (13 * (i - 1))).take 13)]
      rw [chunksFlatten k (lfnPad s k) hpadlen]
    rw [h1, decodeUCS16_encB _ (lfnPad_bounded s k hu), lfnPad_takeWhile]
  obtain ⟨c, rfl⟩ : ∃ c, k = c + 1 := ⟨k - 1, by omega⟩
  unfold get_dirents
  rw [show lfnSlotsDown ck (c + 1) (lfnFrag s (c + 1)) (c + 1)
    = mkLfnSlot (c + 1) (decide (c + 1 = c + 1)) ck (lfnFrag s (c + 1) (c + 1))
      :: lfnSlotsDown ck (c + 1) (lfnFrag s (c + 1)) c from rfl]
  rw [show (decide (c + 1 = c + 1)) = true from by simp]
  rw [List.cons_append]
  rw [lfnSlotStep_last offsFn (c + 1) ck (lfnFrag s (c + 1) (c + 1))
    (hfl (c + 1) (by omega) (by omega)) (by omega) (by omega)
    (lfnSlotsDown ck (c + 1) (lfnFrag s (c + 1)) c ++ [termSlot]) 0
    LfnSt.empty rfl]
  dsimp only [LfnSt.empty]
  rw [if_pos rfl]
  rw [show dictInsert [] (c + 1) (lfnFrag s (c + 1) (c + 1))
    = [(c + 1, lfnFrag s (c + 1) (c + 1))] from by simp [dictInsert]]
  rw [show (0 * 32 : Nat) = 0 from rfl]
  have hpd : partsDown (lfnFrag s (c + 1)) (c + 1) (c + 1 - c)
      = [(c + 1, lfnFrag s (c + 1) (c + 1))] := by
    rw [show (c + 1 - c : Nat) = 1 from by omega]
    simp [partsDown]
  rw [← hpd]
  rw [lfnRunDown offsFn ck (c + 1) (lfnFrag s (c + 1)) hfl hk20 (offsFn 0)
    [termSlot] c (by omega) 1]
  rw [lfnTermStep offsFn (c + 1) hk1 (lfnFrag s (c + 1)) (offsFn 0) (1 + c)]
  rw [hname]
  rw [show ((1 + c) * 32 : Nat) = (c + 1) * 32 from by ring]

/-- A concrete 14-unit long name ("abcdefghijklmn"), split across 2 slots. -/
def sC7 : List Nat := [97, 98, 99, 100, 101, 102, 103, 104, 105, 106, 107,
  108, 109, 110]

theorem c7_lfn_reconstruction_witness :
    (2 : Nat) = (sC7.length + 12) / 13 ∧ 0 < sC7.length ∧ sC7.length ≤ 260
      ∧ (∀ x ∈ sC7, x < 65536)
      ∧ get_dirents (fun o => o)
          (lfnSlotsDown 7 2 (lfnFrag sC7 2) 2 ++ [termSlot])
        = .ok [⟨.file, some (sC7.takeWhile (fun x => decide (x ≠ 0))), 0, 0,
            0x20, attrsOf 0x20, (fun o : Nat => o) (2 * 32),
            (fun o : Nat => o) 0⟩] :=
  ⟨by decide, by decide, by decide, by decide,
    c7_lfn_reconstruction (fun o => o) sC7 2 7 (by decide) (by decide)
      (by decide) (by decide)⟩
